import Mathlib

/-!
Verification development for the `truffle-flattener` program (src/index.js).

The program discovers the transitive import graph of a set of Solidity entry
point files, topologically sorts it, and emits one concatenated file
with import statements and duplicate pragma lines stripped.

Modelling conventions used throughout this file:
  * The program runs on a posix platform, so `path.sep` is `/` and the two
    `lastIndexOf` calls in `getDirPath` coincide.
  * JavaScript strings are modelled by `String`; all character level work
    (regex style line matching, `indexOf`, `substr`, `trim`) is done on
    `List Char` through `String.toList` and `List.asString`.
  * The external collaborators (the resolver-engine, the solidity parser,
    `fs.existsSync`, `find-up`) are modelled as components of an `Env`
    record; each is a pure function, as the spec specifies them only at
    their interface.
  * Promise rejection / thrown errors are modelled with `Except String`;
    the JavaScript error message text is reproduced.
  * Regex matching of `^pragma solidity .*;$` and friends (m flag) is
    modelled line-wise on the result of splitting file contents at the
    newline character; the `^\s*import\s+.*$` removal is modelled as
    emptying each import line (the actual regex can additionally swallow
    whitespace-only lines just before an import line, a difference only in
    interior blank lines, which no statement here depends on).
  * File contents are assumed to use the newline character as their only
    line separator.
-/

/-! ### Character and list utilities -/

/-- The JavaScript whitespace characters relevant to `\s` and `trim` in the
source (ASCII subset; exotic unicode whitespace is not modelled). -/
def isJsWS (c : Char) : Bool :=
  c = ' ' || c = '\t' || c = '\n' || c = '\r' || c = '\x0b' || c = '\x0c'

/-- Split a character list at every occurrence of `sep` (JavaScript
`String.prototype.split` with a single-character separator). Always returns
a non-empty list of parts. -/
def splitChar (sep : Char) : List Char → List (List Char)
  | [] => [[]]
  | c :: cs =>
    match splitChar sep cs with
    | [] => [[]]
    | h :: t => if c = sep then [] :: h :: t else (c :: h) :: t

/-- Join parts with a single-character separator (JavaScript
`Array.prototype.join` with a one-character string). -/
def joinChar (sep : Char) : List (List Char) → List Char
  | [] => []
  | [l] => l
  | l :: ls => l ++ sep :: joinChar sep ls

/-- JavaScript `String.prototype.trim` on a character list. -/
def trimChars (l : List Char) : List Char :=
  (l.dropWhile isJsWS).rdropWhile isJsWS

/-- JavaScript `Array.prototype.join(sep)` for strings. -/
def strJoin (sep : String) : List String → String
  | [] => ""
  | [x] => x
  | x :: xs => x ++ sep ++ strJoin sep xs

/-- Index of the leftmost occurrence of `pat` in `l`
(JavaScript `String.prototype.indexOf`), `none` when there is none. -/
def firstOccur (pat : List Char) : List Char → Option Nat
  | [] => if pat.isPrefixOf [] then some 0 else none
  | c :: cs =>
    if pat.isPrefixOf (c :: cs) then some 0
    else (firstOccur pat cs).map (· + 1)

/-- JavaScript `String.prototype.includes` / a substring test. -/
def strContains (hay needle : String) : Bool :=
  (firstOccur needle.toList hay.toList).isSome

/-- `unique` from src/index.js line 18: `[...new Set(array)]`, i.e.
deduplication keeping the first occurrence of each element.
`uniqueAux seen l` drops the elements of `l` already in `seen`. -/
def uniqueAux [DecidableEq α] (seen : List α) : List α → List α
  | [] => []
  | x :: xs => if x ∈ seen then uniqueAux seen xs else x :: uniqueAux (x :: seen) xs

/-- `unique` from src/index.js (line 18). -/
def unique [DecidableEq α] (l : List α) : List α := uniqueAux [] l

/-! ### Path model (posix semantics of the node `path` module) -/

/-- `getDirPath` from src/index.js (line 29): the substring up to (and
excluding) the last `/`; the empty string when there is no separator.
On posix `path.sep = "/"`, so both `lastIndexOf` calls coincide. -/
def getDirPath (filePath : String) : String :=
  (joinChar '/' ((splitChar '/' filePath.toList).dropLast)).asString

/-- The segment processing of node path `normalizeString`: empty and `.`
segments are dropped, `..` pops the previous segment; when nothing can be
popped, `..` is kept for relative paths (`allowUp = true`) and dropped for
absolute ones. `acc` holds the processed segments in reverse. -/
def normSegsAux (allowUp : Bool) (acc : List (List Char)) :
    List (List Char) → List (List Char)
  | [] => acc.reverse
  | s :: rest =>
    if s = [] || s = ['.'] then normSegsAux allowUp acc rest
    else if s = ['.', '.'] then
      match acc with
      | [] => normSegsAux allowUp (if allowUp then [s] else []) rest
      | a :: as =>
        if a = ['.', '.'] then normSegsAux allowUp (s :: a :: as) rest
        else normSegsAux allowUp as rest
    else normSegsAux allowUp (s :: acc) rest

/-- node `path.normalize` (posix). -/
def pathNormalize (p : String) : String :=
  let cs := p.toList
  if cs = [] then "."
  else
    let isAbs := cs.head? = some '/'
    let trailing := cs.getLast? = some '/'
    let body := joinChar '/' (normSegsAux (!isAbs) [] (splitChar '/' cs))
    if isAbs then
      ('/' :: (body ++ if body ≠ [] ∧ trailing then ['/'] else [])).asString
    else if body = [] then (if trailing then "./" else ".")
    else (body ++ if trailing then ['/'] else []).asString

/-- node `path.join` (posix) restricted to two arguments, as used by
`getNormalizedDependencyPath`. -/
def pathJoin (a b : String) : String :=
  if a = "" ∧ b = "" then "."
  else if a = "" then pathNormalize b
  else if b = "" then pathNormalize a
  else pathNormalize (a ++ "/" ++ b)

/-- node `path.resolve` (posix) with a single argument `f`, resolved against
the process working directory `cwd`. -/
def pathResolve (cwd f : String) : String :=
  let combined :=
    if f.toList.head? = some '/' then f.toList
    else if f = "" then cwd.toList
    else if cwd = "" then f.toList
    else cwd.toList ++ '/' :: f.toList
  let isAbs := combined.head? = some '/'
  let body := joinChar '/' (normSegsAux (!isAbs) [] (splitChar '/' combined))
  if isAbs then ('/' :: body).asString
  else if body = [] then "." else body.asString

/-- Drop the common leading segments of two segment lists. -/
def dropCommonPre : List (List Char) → List (List Char) →
    List (List Char) × List (List Char)
  | x :: xs, y :: ys =>
    if x = y then dropCommonPre xs ys else (x :: xs, y :: ys)
  | xs, ys => (xs, ys)

/-- node `path.relative` (posix): both arguments are first resolved against
`cwd`; the result walks up with `..` segments past the common part of `src`
and down into `dst`. This segment-wise formulation agrees with the character
scanning loop of the node implementation on resolved (normalized, absolute
or both-relative) inputs, which is the only way it is consumed here. -/
def pathRelative (cwd src dst : String) : String :=
  let f := pathResolve cwd src
  let t := pathResolve cwd dst
  if f = t then ""
  else
    let fs := (splitChar '/' f.toList).filter (· ≠ [])
    let ts := (splitChar '/' t.toList).filter (· ≠ [])
    let p := dropCommonPre fs ts
    (joinChar '/' (p.1.map (fun _ => ['.', '.']) ++ p.2)).asString

/-! ### Import path normalization (src/index.js lines 52-59) -/

/-- Replace every backslash by a forward slash:
`dependency.replace(/\\/g, "/")` from src/index.js line 58. -/
def slashify (s : String) : String :=
  (s.toList.map (fun c => if c = '\\' then '/' else c)).asString

/-- `getNormalizedDependencyPath` from src/index.js (lines 52-59). -/
def getNormalizedDependencyPath (dependency filePath : String) : String :=
  let dep :=
    if ['.', '/'].isPrefixOf dependency.toList
        || ['.', '.', '/'].isPrefixOf dependency.toList then
      pathNormalize (pathJoin (getDirPath filePath) dependency)
    else dependency
  slashify dep

/-! ### Global names (src/index.js lines 127-136, 168-170) -/

/-- The characters of the third-party dependency directory marker. -/
def nmSepChars : List Char := "node_modules/".toList

/-- `getFilePathsFromTruffleRoot` from src/index.js (lines 168-170) applied
to a single path: `path.relative(truffleRoot, path.resolve(f))`. The ambient
working directory is passed explicitly. -/
def filePathFromTruffleRoot (cwd truffleRoot f : String) : String :=
  pathRelative cwd truffleRoot (pathResolve cwd f)

/-- `fileNameToGlobalName` from src/index.js (lines 127-136): the path
relative to the project root; when the string `node_modules/` occurs in it,
everything up to and including its first occurrence is dropped
(`indexOf` + `substr`). -/
def fileNameToGlobalName (cwd fileName truffleRoot : String) : String :=
  let globalName := filePathFromTruffleRoot cwd truffleRoot fileName
  match firstOccur nmSepChars globalName.toList with
  | none => globalName
  | some i => (globalName.toList.drop (i + nmSepChars.length)).asString

/-! ### External collaborators -/

/-- The external capabilities consumed by the flattener, specified at their
interface (spec section 6):
  * `resolveFn` models `resolve` from src/index.js (lines 22-27): the
    resolver-engine lookup plus `fs.readFileSync`, giving the file contents
    and the resolved path for an import path, or a rejection.
  * `parseFn` models `parser.parse` + the `ImportDirective` visit of
    src/index.js (lines 37-43): the raw import path strings of the contents
    in source order, or a parse error.
  * `existsFn` models `fs.existsSync`.
  * `findUpFn` models `findUp(["truffle.js", "truffle-config.js"])`. -/
structure Env where
  resolveFn : String → Except String (String × String)
  parseFn : String → Except String (List String)
  existsFn : String → Bool
  findUpFn : Option String

/-- `getDependencies` from src/index.js (lines 35-50): the raw parsed
dependencies of `fileContents`, each normalized against `filePath`; a parse
failure is wrapped with the offending path. -/
def getDependencies (env : Env) (filePath fileContents : String) :
    Except String (List String) :=
  match env.parseFn fileContents with
  | .error err =>
    .error ("Could not parse " ++ filePath ++ " for extracting its imports: " ++ err)
  | .ok imports => .ok (imports.map (fun i => getNormalizedDependencyPath i filePath))

/-! ### Dependency graph construction (src/index.js lines 61-78) -/

/-- The traversal state shared by all entry points: the edge list of the
`tsort` graph, in `graph.add(dependency, filePath)` call order, and the
`visitedFiles` array in push order. -/
structure DfsState where
  graph : List (String × String)
  visited : List String
deriving DecidableEq, Repr

/-- A step of the depth-first traversal: either enter a file, or continue
the `for (let dependency of dependencies)` loop of a file. -/
inductive DfsTask where
  | visit (filePath : String)
  | loop (filePath : String) (deps : List String)

/-- `dependenciesDfs` from src/index.js (lines 61-78) as a fuel-indexed
step function; the fuel only bounds recursion depth so that the definition
is structural, it is not part of the modelled program (every theorem below
either hypothesises a successful run or supplies ample fuel).
`.visit fp` pushes `fp` on the visited list, resolves it and parses its
dependencies; `.loop fp deps` records the edge `(dep, fp)` for each
dependency and recurses only into dependencies not yet visited. -/
def dfsRun (env : Env) : Nat → DfsState → DfsTask → Except String DfsState
  | 0, _, _ => .error "model: recursion fuel exhausted"
  | fuel + 1, st, .visit fp =>
    let st1 : DfsState := { st with visited := st.visited ++ [fp] }
    match env.resolveFn fp with
    | .error e => .error e
    | .ok (fileContents, filePath) =>
      match getDependencies env filePath fileContents with
      | .error e => .error e
      | .ok deps => dfsRun env fuel st1 (.loop fp deps)
  | _ + 1, st, .loop _ [] => .ok st
  | fuel + 1, st, .loop fp (dep :: rest) =>
    let st1 : DfsState := { st with graph := st.graph ++ [(dep, fp)] }
    if dep ∈ st1.visited then dfsRun env fuel st1 (.loop fp rest)
    else
      match dfsRun env fuel st1 (.visit dep) with
      | .error e => .error e
      | .ok st2 => dfsRun env fuel st2 (.loop fp rest)

/-- `dependenciesDfs` entered at a file. -/
def dependenciesDfs (env : Env) (fuel : Nat) (st : DfsState) (filePath : String) :
    Except String DfsState :=
  dfsRun env fuel st (.visit filePath)

/-- The entry point loop of `getSortedFilePaths` (lines 84-86): every entry
point is traversed unconditionally, sharing one state. -/
def dfsAll (env : Env) (fuel : Nat) : DfsState → List String → Except String DfsState
  | st, [] => .ok st
  | st, e :: es =>
    match dependenciesDfs env fuel st e with
    | .error err => .error err
    | .ok st1 => dfsAll env fuel st1 es

/-! ### Topological sort (external `tsort` package, spec section 4.3) -/

/-- The message of the error thrown by the external `tsort` package on a
cyclic graph. -/
def tsortCycleMsg : String :=
  "There is a cycle in the graph. It is not possible to derive a topological sort."

/-- The node list of the `tsort` graph: every edge endpoint in first
registration order (`graph.add(dependency, filePath)` registers the
dependency, then the dependent). -/
def graphNodes (edges : List (String × String)) : List String :=
  unique (edges.flatMap (fun e => [e.1, e.2]))

/-- Does `n` have an incoming edge from a node still in `remaining`? -/
def hasIncoming (edges : List (String × String)) (remaining : List String)
    (n : String) : Bool :=
  edges.any (fun e => e.2 = n ∧ e.1 ∈ remaining)

/-- Modelled from the spec: the topological sort of the external `tsort`
npm package (not part of src/), per spec section 4.3: "Standard topological
sort (e.g., repeated removal of in-degree-zero nodes ...)", producing "a
linear ordering such that every node appears after all nodes it depends
on", and failing on a cycle with the `tsort` cycle error. Nodes are removed
in node-list order; the fuel is `remaining.length` at the top call and the
zero-fuel branch is unreachable. -/
def kahnSortAux (edges : List (String × String)) :
    Nat → List String → Except String (List String)
  | _, [] => .ok []
  | 0, _ :: _ => .error tsortCycleMsg
  | fuel + 1, r :: rs =>
    match (r :: rs).find? (fun n => !hasIncoming edges (r :: rs) n) with
    | none => .error tsortCycleMsg
    | some n =>
      match kahnSortAux edges fuel ((r :: rs).erase n) with
      | .error e => .error e
      | .ok rest => .ok (n :: rest)

/-- Modelled from the spec: `graph.sort()` of the external `tsort` package
(see `kahnSortAux`). -/
def kahnSort (edges : List (String × String)) (nodes : List String) :
    Except String (List String) :=
  kahnSortAux edges nodes.length nodes

/-! ### getSortedFilePaths (src/index.js lines 80-110) -/

/-- The message built in the catch block of `getSortedFilePaths`
(lines 92-97). -/
def cycleMessage (visitedFiles : List String) : String :=
  "There is a cycle in the dependency graph, can\x27t compute topological ordering. Files:\n\t"
    ++ strJoin "\n\t" visitedFiles

/-- The needle of the `e.toString().includes(...)` test in the catch block
(line 92). -/
def cycleNeedle : String := "Error: There is a cycle in the graph."

/-- `getSortedFilePaths` from src/index.js (lines 80-110). The traversal
shares one graph and visited list across entry points; a sort error whose
rendering contains the `tsort` cycle text is replaced by `cycleMessage`
(any other sort error is swallowed by the catch, after which the
`undefined.concat` access throws a TypeError; that branch is unreachable
because the modelled sorter only fails with `tsortCycleMsg`). Entry points
are appended, everything is mapped to global names and deduplicated. -/
def getSortedFilePaths (env : Env) (fuel : Nat) (entryPoints : List String)
    (truffleRoot cwd : String) : Except String (List String) :=
  match dfsAll env fuel ⟨[], []⟩ entryPoints with
  | .error e => .error e
  | .ok st =>
    match kahnSort st.graph (graphNodes st.graph) with
    | .error e =>
      if strContains ("Error: " ++ e) cycleNeedle then
        .error (cycleMessage st.visited)
      else
        .error "TypeError: Cannot read properties of undefined (reading \x27concat\x27)"
    | .ok sorted =>
      .ok (unique ((sorted ++ entryPoints).map
        (fun f => fileNameToGlobalName cwd f truffleRoot)))

/-! ### Cleaning and concatenation (src/index.js lines 112-154) -/

/-- A line matching `/^pragma solidity .*;$/` (the `.` of the regex does
not match a carriage return). -/
def isVersionLine (l : List Char) : Bool :=
  "pragma solidity ".toList.isPrefixOf l && [';'].isSuffixOf l && !l.contains '\r'

/-- A line matching `/^pragma experimental .*;$/`. -/
def isExperimentalLine (l : List Char) : Bool :=
  "pragma experimental ".toList.isPrefixOf l && [';'].isSuffixOf l && !l.contains '\r'

/-- A line matching `/^\s*import\s+.*$/`: optional leading whitespace, the
word `import`, at least one whitespace character. -/
def isImportLine (l : List Char) : Bool :=
  let r := l.dropWhile isJsWS
  "import".toList.isPrefixOf r &&
    match r.drop 6 with
    | c :: _ => isJsWS c
    | [] => false

/-- The body of `replace(...IMPORT..., "").replace(...VERSION..., "")
.replace(...EXPERIMENTAL..., "")` on one line: matched lines lose their
text (the line separators survive the replacement). -/
def stripLine (l : List Char) : List Char :=
  if isImportLine l || isVersionLine l || isExperimentalLine l then [] else l

/-- `cleanFile` from src/index.js (lines 112-125): re-resolve the file,
collect its version pragma matches and experimental pragma matches, empty
every import / pragma line of the body, and trim the result.
Returns `(clean body, version matches, experimental matches)`. -/
def cleanFile (env : Env) (filePath : String) :
    Except String (List Char × List (List Char) × List (List Char)) :=
  match env.resolveFn filePath with
  | .error e => .error e
  | .ok (contents, _) =>
    let ls := splitChar '\n' contents.toList
    let version := ls.filter (fun l => isVersionLine l)
    let experimentals := ls.filter (fun l => isExperimentalLine l)
    let clean := trimChars (joinChar '\n' (ls.map stripLine))
    .ok (clean, version, experimentals)

/-- `files.map(cleanFile)` under `Promise.all` (line 139), keeping each file
name with its cleaned data (the source reduce addresses `files[i]` by
index). All resolution happens before anything is emitted, so one rejection
yields no output at all. -/
def cleanAll (env : Env) :
    List String → Except String (List (String × List Char × List (List Char) × List (List Char)))
  | [] => .ok []
  | f :: fs =>
    match cleanFile env f with
    | .error e => .error e
    | .ok c =>
      match cleanAll env fs with
      | .error e => .error e
      | .ok r => .ok ((f, c) :: r)

/-- The reduce of `printConcatenation` (lines 141-145): concatenated bodies
each prefixed by a newline and a file marker line, and the accumulated
version and experimental pragma match lists. -/
def concatReduce (pairs : List (String × List Char × List (List Char) × List (List Char))) :
    List Char × List (List Char) × List (List Char) :=
  pairs.foldl
    (fun acc pr =>
      (acc.1 ++ '\n' :: ("// File: ".toList ++ pr.1.toList) ++ '\n' :: pr.2.1,
       acc.2.1 ++ pr.2.2.1,
       acc.2.2 ++ pr.2.2.2))
    ([], [], [])

/-- `printConcatenation` from src/index.js (lines 138-154), returning the
chunks passed to `log` in order: the first version pragma match when any
file has one, the deduplicated experimental pragma matches, then the single
concatenated body. -/
def printConcatenation (env : Env) (files : List String) :
    Except String (List (List Char)) :=
  match cleanAll env files with
  | .error e => .error e
  | .ok pairs =>
    let r := concatReduce pairs
    .ok (r.2.1.take 1 ++ unique r.2.2 ++ [r.1])

/-! ### flatten (src/index.js lines 172-198) -/

/-- The process-wide mutable state touched by `flatten`: the working
directory. `process.chdir` resolves its argument against the current
directory. -/
structure Proc where
  cwd : String
deriving DecidableEq, Repr

/-- The error thrown by `getTruffleRoot` (lines 158-163). -/
def truffleRootNotFoundMsg : String :=
  "\n      Truffle Flattener must be run inside a Truffle project:\n      truffle.js or truffle-config.js not found\n    "

/-- The error thrown by `flatten` on a bad explicit root (lines 173-177). -/
def invalidRootMsg : String := "The specified root directory does not exist"

/-- The project root determination of `flatten` (lines 173-179): the
explicit override must exist, otherwise the directory of the config file
found by `findUp` is used. -/
def flattenRootRes (env : Env) (root : Option String) : Except String String :=
  match root with
  | some r => if env.existsFn r then .ok r else .error invalidRootMsg
  | none =>
    match env.findUpFn with
    | some cfgPath => .ok (getDirPath cfgPath)
    | none => .error truffleRootNotFoundMsg

/-- `flatten` from src/index.js (lines 172-198), with the working directory
threaded explicitly. The entry paths are rebased against the root with the
original working directory, the directory is changed to the root, the
sorted-and-concatenated chunks are produced, and only on full success is
the original directory restored. Returns the final process state and the
chunks handed to `log` (or the first error). -/
def flatten (env : Env) (fuel : Nat) (filePaths : List String)
    (root : Option String) (st : Proc) : Proc × Except String (List (List Char)) :=
  match flattenRootRes env root with
  | .error e => (st, .error e)
  | .ok truffleRoot =>
    let rel := filePaths.map (filePathFromTruffleRoot st.cwd truffleRoot)
    let wd := st.cwd
    let st1 : Proc := ⟨pathResolve st.cwd truffleRoot⟩
    match getSortedFilePaths env fuel rel truffleRoot st1.cwd with
    | .error e => (st1, .error e)
    | .ok files =>
      match printConcatenation env files with
      | .error e => (st1, .error e)
      | .ok chunks => (⟨wd⟩, .ok chunks)

/-- The file marker line emitted for one file
(`// File: ${files[i]}`, line 142). -/
def fileMarker (f : String) : String := "// File: " ++ f

/-- All lines of the emitted chunks, in emission order. -/
def outputLines (chunks : List (List Char)) : List (List Char) :=
  chunks.flatMap (fun c => splitChar '\n' c)

/-! ### Concrete environments used by witnesses and counterexamples.
Each models a small project under root `/r`: `resolveFn` maps import paths
to (contents, resolved path), `parseFn` maps contents to their raw import
strings. -/

/-- Entry `E.sol` imports `./node_modules/q.sol` and `./q.sol`; and
`q.sol` imports `./p/x.sol`. The global names collide: `node_modules/q.sol`
and `q.sol` collide after stripping. -/
def envC1x : Env where
  resolveFn := fun p =>
    if p = "E.sol" then .ok ("cE", "E.sol")
    else if p = "node_modules/q.sol" then .ok ("cNQ", "node_modules/q.sol")
    else if p = "q.sol" then .ok ("cQ", "q.sol")
    else if p = "p/x.sol" then .ok ("cP", "p/x.sol")
    else .error ("unresolved: " ++ p)
  parseFn := fun c =>
    if c = "cE" then .ok ["./node_modules/q.sol", "./q.sol"]
    else if c = "cQ" then .ok ["./p/x.sol"]
    else if c = "cNQ" then .ok []
    else if c = "cP" then .ok []
    else .error "parse error"
  existsFn := fun r => r = "/r"
  findUpFn := none

/-- `a.sol` imports `./b.sol`; `b.sol` imports nothing. -/
def envAB : Env where
  resolveFn := fun p =>
    if p = "a.sol" then .ok ("cA", "a.sol")
    else if p = "b.sol" then .ok ("cB", "b.sol")
    else .error ("unresolved: " ++ p)
  parseFn := fun c =>
    if c = "cA" then .ok ["./b.sol"]
    else if c = "cB" then .ok []
    else .error "parse error"
  existsFn := fun r => r = "/r"
  findUpFn := none

/-- `a.sol` and `b.sol` import each other: a two-file import cycle. -/
def envCyc : Env where
  resolveFn := fun p =>
    if p = "a.sol" then .ok ("cA", "a.sol")
    else if p = "b.sol" then .ok ("cB", "b.sol")
    else .error ("unresolved: " ++ p)
  parseFn := fun c =>
    if c = "cA" then .ok ["./b.sol"]
    else if c = "cB" then .ok ["./a.sol"]
    else .error "parse error"
  existsFn := fun r => r = "/r"
  findUpFn := none

/-- A single file whose contents do not parse; the parser reports `boom`. -/
def envBad : Env where
  resolveFn := fun p =>
    if p = "a.sol" then .ok ("bad", "a.sol") else .error ("unresolved: " ++ p)
  parseFn := fun _ => .error "boom"
  existsFn := fun r => r = "/r"
  findUpFn := none

/-- A single file that resolves to nothing at all. -/
def envNoRes : Env where
  resolveFn := fun p => .error ("unresolved: " ++ p)
  parseFn := fun _ => .ok []
  existsFn := fun r => r = "/r"
  findUpFn := none

/-- The pragma scenario of the spec: `f1.sol` (version pragma `^0.5.0`,
one experimental pragma) imports `f2.sol` (version pragma `^0.6.0`, the
identical experimental pragma). -/
def envPragma : Env where
  resolveFn := fun p =>
    if p = "f1.sol" then
      .ok ("pragma solidity ^0.5.0;\npragma experimental ABIEncoderV2;\nimport \"./f2.sol\";\ncontract A is B", "f1.sol")
    else if p = "f2.sol" then
      .ok ("pragma solidity ^0.6.0;\npragma experimental ABIEncoderV2;\ncontract B", "f2.sol")
    else .error ("unresolved: " ++ p)
  parseFn := fun c =>
    if strContains c "import" then .ok ["./f2.sol"] else .ok []
  existsFn := fun r => r = "/r"
  findUpFn := none

/-- A single self-contained file, used from a working directory different
from the project root. -/
def envLone : Env where
  resolveFn := fun p =>
    if p = "../x/a.sol" then .ok ("cA", "../x/a.sol")
    else .error ("unresolved: " ++ p)
  parseFn := fun _ => .ok []
  existsFn := fun r => r = "/r"
  findUpFn := none

/-- The cleaned data of the pragma scenario, in sort order. -/
def pairsPragma : List (String × List Char × List (List Char) × List (List Char)) :=
  match cleanAll envPragma ["f2.sol", "f1.sol"] with
  | .ok ps => ps
  | .error _ => []

/-- The chunks emitted for the pragma scenario, in sort order. -/
def chunksPragma : List (List Char) :=
  match printConcatenation envPragma ["f2.sol", "f1.sol"] with
  | .ok cs => cs
  | .error _ => []

/-- The chunks emitted by a successful `flatten` of the lone-file project. -/
def chunksLone : List (List Char) :=
  match (flatten envLone 20 ["a.sol"] (some "/r") ⟨"/x"⟩).2 with
  | .ok cs => cs
  | .error _ => []

deriving instance DecidableEq for Except

/-! ### Lemmas about `unique` -/

theorem mem_uniqueAux [DecidableEq α] (seen : List α) (l : List α) (x : α) :
    x ∈ uniqueAux seen l ↔ x ∈ l ∧ x ∉ seen := by
  induction l generalizing seen with
  | nil => simp [uniqueAux]
  | cons a as ih =>
    by_cases ha : a ∈ seen
    · simp only [uniqueAux, if_pos ha, ih, List.mem_cons]
      constructor
      · rintro ⟨hx, hn⟩; exact ⟨Or.inr hx, hn⟩
      · rintro ⟨hx | hx, hn⟩
        · exact absurd (hx ▸ ha) hn
        · exact ⟨hx, hn⟩
    · simp only [uniqueAux, if_neg ha, List.mem_cons, ih]
      constructor
      · rintro (rfl | ⟨hx, hn⟩)
        · exact ⟨Or.inl rfl, ha⟩
        · exact ⟨Or.inr hx, fun hs => hn (Or.inr hs)⟩
      · rintro ⟨rfl | hx, hn⟩
        · exact Or.inl rfl
        · by_cases hxa : x = a
          · exact Or.inl hxa
          · exact Or.inr ⟨hx, by simp [hxa, hn]⟩

theorem nodup_uniqueAux [DecidableEq α] (seen : List α) (l : List α) :
    (uniqueAux seen l).Nodup := by
  induction l generalizing seen with
  | nil => simp [uniqueAux]
  | cons a as ih =>
    by_cases ha : a ∈ seen
    · simpa [uniqueAux, ha] using ih seen
    · simp only [uniqueAux, if_neg ha, List.nodup_cons]
      refine ⟨fun hmem => ?_, ih (a :: seen)⟩
      exact ((mem_uniqueAux _ _ _).1 hmem).2 (List.mem_cons_self a seen)

theorem mem_unique [DecidableEq α] (l : List α) (x : α) :
    x ∈ unique l ↔ x ∈ l := by
  simp [unique, mem_uniqueAux]

theorem nodup_unique [DecidableEq α] (l : List α) : (unique l).Nodup :=
  nodup_uniqueAux [] l

theorem uniqueAux_before [DecidableEq α] {seen l : List α} {a b : α}
    (hb : b ∈ l) (hsa : a ∉ seen) (hsb : b ∉ seen)
    (h : l.indexOf a < l.indexOf b) : List.Sublist [a, b] (uniqueAux seen l) := by
  induction l generalizing seen with
  | nil => cases hb
  | cons x xs ih =>
    by_cases hxa : x = a
    · subst hxa
      have hba : b ≠ x := by
        rintro rfl
        simp [List.indexOf_cons_self] at h
      have hbxs : b ∈ xs := by
        rcases List.mem_cons.1 hb with rfl | hm
        · exact absurd rfl hba
        · exact hm
      rw [uniqueAux, if_neg hsa]
      refine List.Sublist.cons₂ x ?_
      have : b ∈ uniqueAux (x :: seen) xs := by
        rw [mem_uniqueAux]
        exact ⟨hbxs, by simp [Ne.symm ?_, hsb]; exact fun hbx => hba hbx⟩
      simpa using List.singleton_sublist.2 this
    · have hxb : x ≠ b := by
        rintro rfl
        rw [List.indexOf_cons_self] at h
        exact Nat.not_lt_zero _ h
      have ha' : (x :: xs).indexOf a = xs.indexOf a + 1 :=
        List.indexOf_cons_ne _ hxa
      have hb' : (x :: xs).indexOf b = xs.indexOf b + 1 :=
        List.indexOf_cons_ne _ hxb
      have hlt : xs.indexOf a < xs.indexOf b := by omega
      have hbxs : b ∈ xs := by
        rcases List.mem_cons.1 hb with rfl | hm
        · exact absurd rfl (Ne.symm hxb)
        · exact hm
      by_cases hxs : x ∈ seen
      · rw [uniqueAux, if_pos hxs]
        exact ih hbxs hsa hsb hlt
      · rw [uniqueAux, if_neg hxs]
        refine List.Sublist.cons x ?_
        refine ih hbxs ?_ ?_ hlt
        · simp [hxa, hsa]; exact fun hax => hxa (hax ▸ rfl)
        · simp [hxb, hsb]; exact fun hbx => hxb (hbx ▸ rfl)

theorem unique_before [DecidableEq α] {l : List α} {a b : α}
    (hb : b ∈ l) (h : l.indexOf a < l.indexOf b) : List.Sublist [a, b] (unique l) :=
  uniqueAux_before hb (List.not_mem_nil a) (List.not_mem_nil b) h

/-- In a duplicate-free list, a pair sublist orders the indices. -/
theorem indexOf_lt_of_pair_sublist [DecidableEq α] {m : List α} {a b : α}
    (hnd : m.Nodup) (hs : List.Sublist [a, b] m) : m.indexOf a < m.indexOf b := by
  induction m with
  | nil => cases hs
  | cons x xs ih =>
    rcases List.nodup_cons.1 hnd with ⟨hx, hnd'⟩
    cases hs with
    | cons _ hs' =>
      have haxs : a ∈ xs := hs'.subset (by simp)
      have hbxs : b ∈ xs := hs'.subset (by simp)
      have hxa : x ≠ a := fun hh => hx (hh ▸ haxs)
      have hxb : x ≠ b := fun hh => hx (hh ▸ hbxs)
      rw [List.indexOf_cons_ne _ hxa, List.indexOf_cons_ne _ hxb]
      exact Nat.succ_lt_succ (ih hnd' hs')
    | cons₂ _ hs' =>
      have hbxs : b ∈ xs := hs'.subset (by simp)
      have hab : a ≠ b := fun hh => hx (hh ▸ hbxs)
      rw [List.indexOf_cons_self, List.indexOf_cons_ne _ hab]
      exact Nat.succ_pos _

/-! ### Lemmas about the modelled topological sort -/

theorem kahnSortAux_perm {edges : List (String × String)} :
    ∀ {fuel : Nat} {rem out : List String},
      kahnSortAux edges fuel rem = .ok out → rem.Perm out := by
  intro fuel
  induction fuel with
  | zero =>
    intro rem out h
    cases rem with
    | nil => cases h; exact List.Perm.refl _
    | cons r rs => cases h
  | succ fuel ih =>
    intro rem out h
    cases rem with
    | nil => cases h; exact List.Perm.refl _
    | cons r rs =>
      rw [kahnSortAux] at h
      split at h
      · exact Except.noConfusion h
      next n hf =>
        split at h
        next e hrec => exact Except.noConfusion h
        next rest hrec =>
          cases h
          have hn : n ∈ r :: rs := List.mem_of_find?_eq_some hf
          exact (List.perm_cons_erase hn).trans ((ih hrec).cons n)

theorem kahnSortAux_edge_before {edges : List (String × String)} {d t : String}
    (hedge : (d, t) ∈ edges) :
    ∀ {fuel : Nat} {rem out : List String},
      kahnSortAux edges fuel rem = .ok out → d ∈ rem → t ∈ rem →
      List.Sublist [d, t] out := by
  intro fuel
  induction fuel with
  | zero =>
    intro rem out h hd ht
    cases rem with
    | nil => cases hd
    | cons r rs => cases h
  | succ fuel ih =>
    intro rem out h hd ht
    cases rem with
    | nil => cases hd
    | cons r rs =>
      rw [kahnSortAux] at h
      split at h
      · exact Except.noConfusion h
      next n hf =>
        split at h
        next e hrec => exact Except.noConfusion h
        next rest hrec =>
          cases h
          have hni : hasIncoming edges (r :: rs) n = false := by
            have := List.find?_some hf
            simpa using this
          have hnoinc : ∀ e ∈ edges, ¬(e.2 = n ∧ e.1 ∈ r :: rs) := by
            simpa [hasIncoming, List.any_eq_false, decide_eq_false_iff_not] using hni
          have htn : t ≠ n := by
            rintro rfl
            exact hnoinc (d, t) hedge ⟨rfl, hd⟩
          have ht' : t ∈ (r :: rs).erase n :=
            (List.mem_erase_of_ne htn).2 ht
          by_cases hdn : d = n
          · subst hdn
            refine List.Sublist.cons₂ d ?_
            have : t ∈ rest := ((kahnSortAux_perm hrec).mem_iff).1 ht'
            simpa using List.singleton_sublist.2 this
          · have hd' : d ∈ (r :: rs).erase n :=
              (List.mem_erase_of_ne hdn).2 hd
            exact List.Sublist.cons n (ih hrec hd' ht')

theorem kahnSortAux_cycle {edges : List (String × String)} {S : List String}
    (hne : S ≠ []) (hcyc : ∀ x ∈ S, ∃ dd, dd ∈ S ∧ (dd, x) ∈ edges) :
    ∀ {fuel : Nat} {rem : List String}, (∀ x ∈ S, x ∈ rem) →
      kahnSortAux edges fuel rem = .error tsortCycleMsg := by
  intro fuel
  induction fuel with
  | zero =>
    intro rem hsub
    cases rem with
    | nil =>
      cases S with
      | nil => exact absurd rfl hne
      | cons s ss => cases hsub s (by simp)
    | cons r rs => rfl
  | succ fuel ih =>
    intro rem hsub
    cases rem with
    | nil =>
      cases S with
      | nil => exact absurd rfl hne
      | cons s ss => cases hsub s (by simp)
    | cons r rs =>
      rw [kahnSortAux]
      cases hf : (r :: rs).find? (fun n => !hasIncoming edges (r :: rs) n) with
      | none => rfl
      | some n =>
        have hni : hasIncoming edges (r :: rs) n = false := by
          have := List.find?_some hf
          simpa using this
        have hnoinc : ∀ e ∈ edges, ¬(e.2 = n ∧ e.1 ∈ r :: rs) := by
          simpa [hasIncoming, List.any_eq_false, decide_eq_false_iff_not] using hni
        have hnS : n ∉ S := by
          intro hn
          obtain ⟨dd, hddS, hdd⟩ := hcyc n hn
          exact hnoinc (dd, n) hdd ⟨rfl, hsub dd hddS⟩
        have hsub' : ∀ x ∈ S, x ∈ (r :: rs).erase n := by
          intro x hx
          refine (List.mem_erase_of_ne (fun hxn => hnS ?_)).2 (hsub x hx)
          rw [← hxn]; exact hx
        dsimp only
        rw [ih hsub']

theorem mem_graphNodes_of_edge {edges : List (String × String)} {d t : String}
    (h : (d, t) ∈ edges) : d ∈ graphNodes edges ∧ t ∈ graphNodes edges := by
  constructor <;>
    · rw [graphNodes, mem_unique, List.mem_flatMap]
      exact ⟨(d, t), h, by simp⟩

/-! ### String helper lemmas -/

theorem str_toList_append (a b : String) : (a ++ b).toList = a.toList ++ b.toList := by
  cases a; cases b; rfl

theorem string_append_left_inj (p : String) {a b : String}
    (h : p ++ a = p ++ b) : a = b := by
  apply String.ext
  have := congrArg String.data h
  simpa using this

theorem firstOccur_isSome_iff_occurs {pat l : List Char} :
    (firstOccur pat l).isSome = true ↔ List.IsInfix pat l := by
  induction l with
  | nil =>
    rw [firstOccur]
    by_cases hp : pat.isPrefixOf ([] : List Char)
    · simp only [if_pos hp, Option.isSome_some, true_iff]
      exact (List.isPrefixOf_iff_prefix.1 hp).isInfix
    · simp only [if_neg hp, Option.isSome_none, Bool.false_eq_true, false_iff]
      intro hinf
      have hnil : pat = [] := List.sublist_nil.mp hinf.sublist
      subst hnil
      exact hp (by simp)
  | cons c cs ih =>
    rw [firstOccur]
    by_cases hp : pat.isPrefixOf (c :: cs)
    · simp only [if_pos hp, Option.isSome_some, true_iff]
      exact (List.isPrefixOf_iff_prefix.1 hp).isInfix
    · simp only [if_neg hp, Option.isSome_map']
      rw [ih, List.infix_cons_iff]
      constructor
      · exact Or.inr
      · rintro (hpre | hinf)
        · exact absurd (List.isPrefixOf_iff_prefix.2 hpre) hp
        · exact hinf

theorem strContains_iff {hay needle : String} :
    strContains hay needle = true ↔ List.IsInfix needle.toList hay.toList := by
  rw [strContains]
  exact firstOccur_isSome_iff_occurs

theorem strJoin_mem_sub {sep : String} {l : List String} {f : String} (h : f ∈ l) :
    List.IsInfix f.toList (strJoin sep l).toList := by
  induction l with
  | nil => cases h
  | cons x xs ih =>
    cases xs with
    | nil =>
      rcases List.mem_cons.1 h with rfl | hm
      · exact List.infix_refl _
      · cases hm
    | cons y ys =>
      have hstep : strJoin sep (x :: y :: ys) = x ++ sep ++ strJoin sep (y :: ys) := rfl
      rw [hstep, str_toList_append, str_toList_append]
      rcases List.mem_cons.1 h with rfl | hm
      · exact ((List.prefix_append f.toList sep.toList).trans
          (List.prefix_append _ _)).isInfix
      · exact (ih hm).trans (List.suffix_append _ _).isInfix

/-! ### Structure of `getSortedFilePaths` -/

theorem getSortedFilePaths_eq_of_sort_ok {env : Env} {fuel : Nat}
    {entries : List String} {root cwd : String} {st : DfsState} {sorted : List String}
    (hdfs : dfsAll env fuel ⟨[], []⟩ entries = .ok st)
    (hsort : kahnSort st.graph (graphNodes st.graph) = .ok sorted) :
    getSortedFilePaths env fuel entries root cwd =
      .ok (unique ((sorted ++ entries).map (fun f => fileNameToGlobalName cwd f root))) := by
  rw [getSortedFilePaths, hdfs]
  dsimp only
  rw [hsort]

theorem getSortedFilePaths_ok_shape {env : Env} {fuel : Nat}
    {entries : List String} {root cwd : String} {files : List String}
    (h : getSortedFilePaths env fuel entries root cwd = .ok files) :
    ∃ st sorted, dfsAll env fuel ⟨[], []⟩ entries = .ok st ∧
      kahnSort st.graph (graphNodes st.graph) = .ok sorted ∧
      files = unique ((sorted ++ entries).map (fun f => fileNameToGlobalName cwd f root)) := by
  rw [getSortedFilePaths] at h
  split at h
  · exact Except.noConfusion h
  next st hdfs =>
    split at h
    next e hsort =>
      split at h <;> exact Except.noConfusion h
    next sorted hsort =>
      cases h
      exact ⟨st, sorted, hdfs, hsort, rfl⟩

theorem indexOf_map_of_inj {g : String → String} {L : List String} {d : String}
    (hd : d ∈ L) (hinj : ∀ a ∈ L, g a = g d → a = d) :
    (L.map g).indexOf (g d) = L.indexOf d := by
  induction L with
  | nil => cases hd
  | cons x xs ih =>
    by_cases hx : x = d
    · subst hx
      rw [List.map_cons, List.indexOf_cons_self, List.indexOf_cons_self]
    · have hgx : g x ≠ g d := fun hgeq => hx (hinj x (by simp) hgeq)
      have hdxs : d ∈ xs := by
        rcases List.mem_cons.1 hd with rfl | hm
        · exact absurd rfl (Ne.symm hx)
        · exact hm
      rw [List.map_cons, List.indexOf_cons_ne _ hgx, List.indexOf_cons_ne _ (fun h => hx h)]
      rw [ih hdxs (fun a ha hga => hinj a (List.mem_cons_of_mem _ ha) hga)]

/-- The heart of claim C1, in its amended form: when the global name mapping
is injective on the sorted files and the entry points, every recorded edge
`(d, t)` puts the global name of `d` strictly before the global name of `t`
in the final deduplicated file list. -/
theorem getSortedFilePaths_edge_order {env : Env} {fuel : Nat}
    {entries : List String} {root cwd : String} {st : DfsState}
    {sorted files : List String} {d t : String}
    (hdfs : dfsAll env fuel ⟨[], []⟩ entries = .ok st)
    (hsort : kahnSort st.graph (graphNodes st.graph) = .ok sorted)
    (hfiles : getSortedFilePaths env fuel entries root cwd = .ok files)
    (hinj : ∀ a ∈ sorted ++ entries, ∀ b ∈ sorted ++ entries,
      fileNameToGlobalName cwd a root = fileNameToGlobalName cwd b root → a = b)
    (hedge : (d, t) ∈ st.graph) :
    files.indexOf (fileNameToGlobalName cwd d root) <
      files.indexOf (fileNameToGlobalName cwd t root) := by
  have hfe : files = unique ((sorted ++ entries).map
      (fun f => fileNameToGlobalName cwd f root)) := by
    have := (getSortedFilePaths_eq_of_sort_ok hdfs hsort).symm.trans hfiles
    exact (Except.ok.inj this).symm
  obtain ⟨hdn, htn⟩ := mem_graphNodes_of_edge hedge
  have hperm : (graphNodes st.graph).Perm sorted := kahnSortAux_perm hsort
  have hnodup : sorted.Nodup := hperm.nodup (nodup_unique _)
  have hds : d ∈ sorted := hperm.mem_iff.1 hdn
  have hts : t ∈ sorted := hperm.mem_iff.1 htn
  have hpair : List.Sublist [d, t] sorted :=
    kahnSortAux_edge_before hedge hsort hdn htn
  have hidx : sorted.indexOf d < sorted.indexOf t :=
    indexOf_lt_of_pair_sublist hnodup hpair
  have hdl : d ∈ sorted ++ entries := List.mem_append_left _ hds
  have htl : t ∈ sorted ++ entries := List.mem_append_left _ hts
  have hidxL : (sorted ++ entries).indexOf d < (sorted ++ entries).indexOf t := by
    rw [List.indexOf_append_of_mem hds, List.indexOf_append_of_mem hts]
    exact hidx
  have hmapd : ((sorted ++ entries).map (fun f => fileNameToGlobalName cwd f root)).indexOf
      (fileNameToGlobalName cwd d root) = (sorted ++ entries).indexOf d :=
    indexOf_map_of_inj hdl (fun a ha hga => hinj a ha d hdl hga)
  have hmapt : ((sorted ++ entries).map (fun f => fileNameToGlobalName cwd f root)).indexOf
      (fileNameToGlobalName cwd t root) = (sorted ++ entries).indexOf t :=
    indexOf_map_of_inj htl (fun a ha hga => hinj a ha t htl hga)
  have hmem : fileNameToGlobalName cwd t root ∈
      (sorted ++ entries).map (fun f => fileNameToGlobalName cwd f root) :=
    List.mem_map_of_mem _ htl
  have hpair2 : List.Sublist [fileNameToGlobalName cwd d root, fileNameToGlobalName cwd t root]
      (unique ((sorted ++ entries).map (fun f => fileNameToGlobalName cwd f root))) := by
    refine unique_before hmem ?_
    rw [hmapd, hmapt]
    exact hidxL
  rw [hfe]
  exact indexOf_lt_of_pair_sublist (nodup_unique _) hpair2

/-! ### Dedup of the emitted file list (claim C2) -/

theorem getSortedFilePaths_markers {env : Env} {fuel : Nat}
    {entries : List String} {root cwd : String} {files : List String}
    (h : getSortedFilePaths env fuel entries root cwd = .ok files) :
    files.Nodup ∧ (files.map fileMarker).Nodup ∧
      ∀ e ∈ entries, (files.map fileMarker).count
        (fileMarker (fileNameToGlobalName cwd e root)) = 1 := by
  obtain ⟨st, sorted, _, _, hfe⟩ := getSortedFilePaths_ok_shape h
  subst hfe
  have hnd : (unique ((sorted ++ entries).map
      (fun f => fileNameToGlobalName cwd f root))).Nodup := nodup_unique _
  have hminj : Function.Injective fileMarker := by
    intro a b hab
    exact string_append_left_inj "// File: " hab
  refine ⟨hnd, List.Nodup.map hminj hnd, ?_⟩
  intro e he
  have hmem : fileNameToGlobalName cwd e root ∈
      unique ((sorted ++ entries).map (fun f => fileNameToGlobalName cwd f root)) := by
    rw [mem_unique]
    exact List.mem_map_of_mem _ (List.mem_append_right _ he)
  have : fileMarker (fileNameToGlobalName cwd e root) ∈
      (unique ((sorted ++ entries).map (fun f => fileNameToGlobalName cwd f root))).map fileMarker :=
    List.mem_map_of_mem _ hmem
  exact List.count_eq_one_of_mem (List.Nodup.map hminj hnd) this

/-! ### Cycle handling (claim C3) -/

theorem getSortedFilePaths_cycle {env : Env} {fuel : Nat}
    {entries : List String} {root cwd : String} {st : DfsState} {S : List String}
    (hdfs : dfsAll env fuel ⟨[], []⟩ entries = .ok st)
    (hne : S ≠ []) (hS : ∀ x ∈ S, x ∈ graphNodes st.graph)
    (hcyc : ∀ x ∈ S, ∃ dd, dd ∈ S ∧ (dd, x) ∈ st.graph) :
    getSortedFilePaths env fuel entries root cwd = .error (cycleMessage st.visited) := by
  have hsort : kahnSort st.graph (graphNodes st.graph) = .error tsortCycleMsg :=
    kahnSortAux_cycle hne hcyc hS
  have hcontains : strContains ("Error: " ++ tsortCycleMsg) cycleNeedle = true := by decide
  rw [getSortedFilePaths, hdfs]
  dsimp only
  rw [hsort]
  dsimp only
  rw [if_pos hcontains]

theorem cycleMessage_contains {visited : List String} {f : String} (h : f ∈ visited) :
    strContains (cycleMessage visited) f = true := by
  rw [strContains_iff, cycleMessage, str_toList_append]
  exact (strJoin_mem_sub h).trans (List.suffix_append _ _).isInfix

/-! ### Structure of `flatten` -/

theorem flatten_sort_error {env : Env} {fuel : Nat} {paths : List String}
    {r : String} {st0 : Proc} {e : String}
    (hex : env.existsFn r = true)
    (hsort : getSortedFilePaths env fuel
      (paths.map (filePathFromTruffleRoot st0.cwd r)) r (pathResolve st0.cwd r) = .error e) :
    flatten env fuel paths (some r) st0 = (⟨pathResolve st0.cwd r⟩, .error e) := by
  rw [flatten, flattenRootRes]
  dsimp only
  rw [if_pos hex]
  dsimp only
  rw [hsort]

theorem flatten_cwd {env : Env} {fuel : Nat} {paths : List String}
    {root : Option String} {st0 : Proc} :
    (∀ chunks, (flatten env fuel paths root st0).2 = .ok chunks →
      (flatten env fuel paths root st0).1.cwd = st0.cwd) ∧
    (∀ e, (flatten env fuel paths root st0).2 = .error e →
      (flatten env fuel paths root st0).1 = st0 ∨
        ∃ r, flattenRootRes env root = .ok r ∧
          (flatten env fuel paths root st0).1.cwd = pathResolve st0.cwd r) := by
  cases hroot : flattenRootRes env root with
  | error e0 =>
    rw [flatten, hroot]
    exact ⟨fun chunks h => Except.noConfusion h, fun e _ => Or.inl rfl⟩
  | ok r =>
    rw [flatten, hroot]
    dsimp only
    cases hs : getSortedFilePaths env fuel
        (paths.map (filePathFromTruffleRoot st0.cwd r)) r (pathResolve st0.cwd r) with
    | error e1 =>
      dsimp only
      exact ⟨fun chunks h => Except.noConfusion h, fun e _ => Or.inr ⟨r, rfl, rfl⟩⟩
    | ok files =>
      dsimp only
      cases hp : printConcatenation env files with
      | error e2 =>
        dsimp only
        exact ⟨fun chunks h => Except.noConfusion h, fun e _ => Or.inr ⟨r, rfl, rfl⟩⟩
      | ok chunks =>
        dsimp only
        exact ⟨fun _ _ => rfl, fun e h => Except.noConfusion h⟩

/-! ### Lemmas about the depth-first traversal -/

theorem dfsRun_mono (env : Env) :
    ∀ {fuel : Nat} {st : DfsState} {task : DfsTask} {st' : DfsState},
      dfsRun env fuel st task = .ok st' →
      List.IsPrefix st.graph st'.graph ∧ List.IsPrefix st.visited st'.visited := by
  intro fuel
  induction fuel with
  | zero => intro st task st' h; exact Except.noConfusion h
  | succ fuel ih =>
    intro st task st' h
    cases task with
    | visit fp =>
      rw [dfsRun] at h
      split at h
      · exact Except.noConfusion h
      next contents path hres =>
        split at h
        · exact Except.noConfusion h
        next deps hdeps =>
          obtain ⟨hg, hv⟩ := ih h
          refine ⟨hg, List.IsPrefix.trans ?_ hv⟩
          exact List.prefix_append _ _
    | loop fp deps =>
      cases deps with
      | nil =>
        rw [dfsRun] at h
        cases h
        exact ⟨List.prefix_refl _, List.prefix_refl _⟩
      | cons dep rest =>
        rw [dfsRun] at h
        split at h
        · obtain ⟨hg, hv⟩ := ih h
          exact ⟨List.IsPrefix.trans (List.prefix_append _ _) hg, hv⟩
        · split at h
          · exact Except.noConfusion h
          next st2 hrec =>
            obtain ⟨hg1, hv1⟩ := ih hrec
            obtain ⟨hg2, hv2⟩ := ih h
            exact ⟨List.IsPrefix.trans (List.prefix_append _ _)
              (List.IsPrefix.trans hg1 hg2), List.IsPrefix.trans hv1 hv2⟩

theorem dfsRun_loop_edges (env : Env) :
    ∀ {fuel : Nat} {st : DfsState} {fp : String} {deps : List String} {st' : DfsState},
      dfsRun env fuel st (.loop fp deps) = .ok st' →
      ∀ dep ∈ deps, (dep, fp) ∈ st'.graph := by
  intro fuel
  induction fuel with
  | zero => intro st fp deps st' h; exact Except.noConfusion h
  | succ fuel ih =>
    intro st fp deps st' h
    cases deps with
    | nil => intro dep hdep; cases hdep
    | cons dep0 rest =>
      intro dep hdep
      rw [dfsRun] at h
      have hmem0 : (dep0, fp) ∈ st.graph ++ [(dep0, fp)] := by simp
      rcases List.mem_cons.1 hdep with rfl | hrest
      · split at h
        · exact ((dfsRun_mono env h).1.subset) hmem0
        · split at h
          · exact Except.noConfusion h
          next st2 hrec =>
            have h1 : (dep, fp) ∈ st2.graph := ((dfsRun_mono env hrec).1.subset) hmem0
            exact ((dfsRun_mono env h).1.subset) h1
      · split at h
        · exact ih h dep hrest
        · split at h
          · exact Except.noConfusion h
          next st2 hrec => exact ih h dep hrest

/-- The loop guard of `dependenciesDfs` (line 74): a dependency already in
the visited list only records its edge; the traversal state is otherwise
untouched and no recursive descent happens. -/
theorem dfsRun_visited_skip (env : Env) (fuel : Nat) (st : DfsState)
    (fp dep : String) (rest : List String) (h : dep ∈ st.visited) :
    dfsRun env (fuel + 1) st (.loop fp (dep :: rest)) =
      dfsRun env fuel { st with graph := st.graph ++ [(dep, fp)] } (.loop fp rest) := by
  simp [dfsRun, h]

theorem dfsRun_nodup (env : Env) :
    ∀ {fuel : Nat} {st : DfsState} {task : DfsTask} {st' : DfsState},
      dfsRun env fuel st task = .ok st' → st.visited.Nodup →
      (∀ fp, task = .visit fp → fp ∉ st.visited) → st'.visited.Nodup := by
  intro fuel
  induction fuel with
  | zero => intro st task st' h; exact Except.noConfusion h
  | succ fuel ih =>
    intro st task st' h hnd htask
    cases task with
    | visit fp =>
      rw [dfsRun] at h
      split at h
      · exact Except.noConfusion h
      next contents path hres =>
        split at h
        · exact Except.noConfusion h
        next deps hdeps =>
          refine ih h ?_ (by intro fp' hfp'; cases hfp')
          rw [List.nodup_append]
          exact ⟨hnd, List.nodup_singleton fp,
            by simpa using htask fp rfl⟩
    | loop fp deps =>
      cases deps with
      | nil => rw [dfsRun] at h; cases h; exact hnd
      | cons dep0 rest =>
        rw [dfsRun] at h
        split at h
        · exact ih h hnd (by intro fp' hfp'; cases hfp')
        next hnm =>
          split at h
          · exact Except.noConfusion h
          next st2 hrec =>
            have hnd2 : st2.visited.Nodup := by
              refine ih hrec hnd ?_
              intro fp' hfp'
              cases hfp'
              simpa using hnm
            exact ih h hnd2 (by intro fp' hfp'; cases hfp')

/-! ### Error propagation (claim C8) -/

theorem dependenciesDfs_resolve_error (env : Env) (fuel : Nat) (st : DfsState)
    (fp e : String) (h : env.resolveFn fp = .error e) :
    dependenciesDfs env (fuel + 1) st fp = .error e := by
  rw [dependenciesDfs, dfsRun, h]

theorem dependenciesDfs_parse_error (env : Env) (fuel : Nat) (st : DfsState)
    (fp c p cause : String) (hres : env.resolveFn fp = .ok (c, p))
    (hparse : env.parseFn c = .error cause) :
    dependenciesDfs env (fuel + 1) st fp =
      .error ("Could not parse " ++ p ++ " for extracting its imports: " ++ cause) := by
  rw [dependenciesDfs, dfsRun, hres]
  dsimp only
  rw [getDependencies, hparse]

theorem dfsAll_cons_error (env : Env) (fuel : Nat) (st : DfsState)
    (e0 : String) (es : List String) (msg : String)
    (h : dependenciesDfs env fuel st e0 = .error msg) :
    dfsAll env fuel st (e0 :: es) = .error msg := by
  rw [dfsAll, h]

theorem getSortedFilePaths_dfs_error (env : Env) (fuel : Nat)
    (entries : List String) (root cwd : String) (e : String)
    (h : dfsAll env fuel ⟨[], []⟩ entries = .error e) :
    getSortedFilePaths env fuel entries root cwd = .error e := by
  rw [getSortedFilePaths, h]

/-! ### Lemmas about `splitChar` and `joinChar` -/

theorem splitChar_ne_nil (sep : Char) (l : List Char) : splitChar sep l ≠ [] := by
  induction l with
  | nil => simp [splitChar]
  | cons c cs ih =>
    rw [splitChar]
    cases hcs : splitChar sep cs with
    | nil => exact absurd hcs ih
    | cons h t =>
      by_cases hc : c = sep
      · simp [hc]
      · simp [hc]

theorem splitChar_sep_not_mem (sep : Char) (l : List Char) :
    ∀ p ∈ splitChar sep l, sep ∉ p := by
  induction l with
  | nil => intro p hp; rw [splitChar] at hp; simp at hp; simp [hp]
  | cons c cs ih =>
    intro p hp
    rw [splitChar] at hp
    cases hcs : splitChar sep cs with
    | nil => exact absurd hcs (splitChar_ne_nil sep cs)
    | cons h t =>
      rw [hcs] at hp
      dsimp only at hp
      by_cases hc : c = sep
      · rw [if_pos hc] at hp
        rcases List.mem_cons.1 hp with rfl | hp'
        · simp
        · exact ih p (hcs ▸ hp')
      · rw [if_neg hc] at hp
        rcases List.mem_cons.1 hp with rfl | hp'
        · intro hmem
          rcases List.mem_cons.1 hmem with rfl | hmem'
          · exact hc rfl
          · exact ih h (hcs ▸ List.mem_cons_self h t) hmem'
        · exact ih p (hcs ▸ List.mem_cons_of_mem h hp')

theorem splitChar_of_not_mem {sep : Char} {l : List Char} (h : sep ∉ l) :
    splitChar sep l = [l] := by
  induction l with
  | nil => rfl
  | cons c cs ih =>
    have hc : c ≠ sep := fun hh => h (hh ▸ List.mem_cons_self c cs)
    have hcs : sep ∉ cs := fun hh => h (List.mem_cons_of_mem c hh)
    rw [splitChar, ih hcs]
    simp [hc]

theorem splitChar_append_sep (sep : Char) (a b : List Char) :
    splitChar sep (a ++ sep :: b) = splitChar sep a ++ splitChar sep b := by
  induction a with
  | nil =>
    rw [List.nil_append, splitChar]
    cases hb : splitChar sep b with
    | nil => exact absurd hb (splitChar_ne_nil sep b)
    | cons h t => simp [splitChar, hb]
  | cons x xs ih =>
    rw [List.cons_append, splitChar, ih, splitChar]
    cases hxs : splitChar sep xs with
    | nil => exact absurd hxs (splitChar_ne_nil sep xs)
    | cons h t =>
      by_cases hx : x = sep
      · simp [hx]
      · simp [hx]

theorem splitChar_joinChar {sep : Char} :
    ∀ {L : List (List Char)}, L ≠ [] → (∀ p ∈ L, sep ∉ p) →
      splitChar sep (joinChar sep L) = L := by
  intro L
  induction L with
  | nil => intro h; exact absurd rfl h
  | cons l ls ih =>
    intro _ hL
    cases ls with
    | nil =>
      rw [joinChar, splitChar_of_not_mem (hL l (List.mem_cons_self l []))]
    | cons y ys =>
      have hstep : joinChar sep (l :: y :: ys) = l ++ sep :: joinChar sep (y :: ys) := rfl
      rw [hstep, splitChar_append_sep,
        splitChar_of_not_mem (hL l (List.mem_cons_self l (y :: ys))),
        ih (List.cons_ne_nil y ys) (fun p hp => hL p (List.mem_cons_of_mem l hp))]
      rfl

theorem joinChar_concat (sep : Char) (A : List (List Char)) (x : List Char)
    (hA : A ≠ []) : joinChar sep (A ++ [x]) = joinChar sep A ++ sep :: x := by
  induction A with
  | nil => exact absurd rfl hA
  | cons a as ih =>
    cases as with
    | nil => rfl
    | cons b bs =>
      have h1 : joinChar sep ((a :: b :: bs) ++ [x]) =
          a ++ sep :: joinChar sep ((b :: bs) ++ [x]) := rfl
      have h2 : joinChar sep (a :: b :: bs) = a ++ sep :: joinChar sep (b :: bs) := rfl
      rw [h1, h2, ih (List.cons_ne_nil b bs)]
      simp

theorem joinChar_reverse (sep : Char) (L : List (List Char)) :
    (joinChar sep L).reverse = joinChar sep (L.reverse.map List.reverse) := by
  induction L with
  | nil => rfl
  | cons l ls ih =>
    cases ls with
    | nil => rfl
    | cons y ys =>
      have hstep : joinChar sep (l :: y :: ys) = l ++ sep :: joinChar sep (y :: ys) := rfl
      rw [hstep]
      rw [List.reverse_append]
      have : (sep :: joinChar sep (y :: ys)).reverse =
          (joinChar sep (y :: ys)).reverse ++ [sep] := by simp
      rw [this, ih]
      have hne : ((y :: ys).reverse.map List.reverse) ≠ [] := by simp
      have hcc := joinChar_concat sep ((y :: ys).reverse.map List.reverse) l.reverse hne
      rw [List.append_assoc]
      rw [show (l :: y :: ys).reverse.map List.reverse =
        ((y :: ys).reverse.map List.reverse) ++ [l.reverse] by simp]
      rw [hcc]
      simp

/-! ### Trimming a joined line list -/

theorem leftTrim_join :
    ∀ (L : List (List Char)), (∀ l ∈ L, '\n' ∉ l) →
      ∃ L₁, (joinChar '\n' L).dropWhile isJsWS = joinChar '\n' L₁ ∧
        (∀ l ∈ L₁, '\n' ∉ l) ∧
        (∀ l' ∈ L₁, ∃ l ∈ L, l' = l ∨ l' = l.dropWhile isJsWS) := by
  intro L
  induction L with
  | nil =>
    intro _
    exact ⟨[], by simp [joinChar], by simp, by simp⟩
  | cons l ls ih =>
    intro hL
    cases ls with
    | nil =>
      refine ⟨[l.dropWhile isJsWS], by simp [joinChar], ?_, ?_⟩
      · intro m hm
        rcases List.mem_singleton.1 hm with rfl
        intro hmem
        exact hL l (List.mem_cons_self l []) ((List.dropWhile_sublist isJsWS).subset hmem)
      · intro l' hl'
        rcases List.mem_singleton.1 hl' with rfl
        exact ⟨l, List.mem_cons_self l [], Or.inr rfl⟩
    | cons y ys =>
      have hstep : joinChar '\n' (l :: y :: ys) = l ++ '\n' :: joinChar '\n' (y :: ys) := rfl
      rw [hstep, List.dropWhile_append]
      cases hD : l.dropWhile isJsWS with
      | nil =>
        simp only [hD, List.isEmpty_nil, if_true]
        have hnl : isJsWS '\n' = true := by decide
        rw [List.dropWhile_cons_of_pos hnl]
        obtain ⟨L₁, h1, h1n, h1v⟩ := ih (fun m hm => hL m (List.mem_cons_of_mem l hm))
        exact ⟨L₁, h1, h1n, fun l' hl' =>
          (h1v l' hl').imp (fun m hm => ⟨List.mem_cons_of_mem l hm.1, hm.2⟩)⟩
      | cons x xs =>
        simp only [hD, List.isEmpty_cons, if_false]
        refine ⟨(x :: xs) :: y :: ys, ?_, ?_, ?_⟩
        · rfl
        · intro m hm
          rcases List.mem_cons.1 hm with rfl | hm'
          · intro hmem
            exact hL l (List.mem_cons_self l _)
              ((List.dropWhile_sublist isJsWS).subset (hD ▸ hmem))
          · exact hL m (List.mem_cons_of_mem l hm')
        · intro l' hl'
          rcases List.mem_cons.1 hl' with rfl | hl''
          · exact ⟨l, List.mem_cons_self l _, Or.inr hD.symm⟩
          · exact ⟨l', List.mem_cons_of_mem l hl'', Or.inl rfl⟩

theorem rightTrim_join (L₁ : List (List Char)) (hL : ∀ l ∈ L₁, '\n' ∉ l) :
    ∃ L₂, (joinChar '\n' L₁).rdropWhile isJsWS = joinChar '\n' L₂ ∧
      (∀ l ∈ L₂, '\n' ∉ l) ∧
      (∀ l' ∈ L₂, ∃ l ∈ L₁, l' = l ∨ l' = l.rdropWhile isJsWS) := by
  obtain ⟨M, hM, hMn, hMv⟩ := leftTrim_join (L₁.reverse.map List.reverse) (by
    intro m hm
    rw [List.mem_map] at hm
    obtain ⟨l, hl, rfl⟩ := hm
    rw [List.mem_reverse] at hl
    simpa using hL l hl)
  refine ⟨M.reverse.map List.reverse, ?_, ?_, ?_⟩
  · rw [List.rdropWhile, joinChar_reverse, hM, joinChar_reverse]
  · intro m hm
    rw [List.mem_map] at hm
    obtain ⟨l, hl, rfl⟩ := hm
    rw [List.mem_reverse] at hl
    simpa using hMn l hl
  · intro l' hl'
    rw [List.mem_map] at hl'
    obtain ⟨m, hm, rfl⟩ := hl'
    rw [List.mem_reverse] at hm
    obtain ⟨l0, hl0, hv⟩ := hMv m hm
    rw [List.mem_map] at hl0
    obtain ⟨l, hl, rfl⟩ := hl0
    rw [List.mem_reverse] at hl
    refine ⟨l, hl, ?_⟩
    rcases hv with rfl | rfl
    · exact Or.inl (by simp)
    · exact Or.inr (by simp [List.rdropWhile])

theorem bodyLines_variants (L : List (List Char)) (hL : ∀ l ∈ L, '\n' ∉ l) :
    ∀ l' ∈ splitChar '\n' (trimChars (joinChar '\n' L)),
      l' = [] ∨ ∃ l ∈ L, l' = l ∨ l' = l.dropWhile isJsWS ∨
        l' = l.rdropWhile isJsWS ∨ l' = trimChars l := by
  obtain ⟨L₁, h1, h1n, h1v⟩ := leftTrim_join L hL
  obtain ⟨L₂, h2, h2n, h2v⟩ := rightTrim_join L₁ h1n
  intro l' hl'
  rw [trimChars, h1, h2] at hl'
  cases hL2 : L₂ with
  | nil =>
    subst hL2
    rcases hl' with hl'
    rw [show joinChar '\n' [] = [] from rfl] at hl'
    rw [show splitChar '\n' ([] : List Char) = [[]] from rfl] at hl'
    exact Or.inl (List.mem_singleton.1 hl')
  | cons a as =>
    subst hL2
    rw [splitChar_joinChar (List.cons_ne_nil a as) h2n] at hl'
    obtain ⟨m, hm, hv2⟩ := h2v l' hl'
    obtain ⟨l0, hl0, hv1⟩ := h1v m hm
    right
    refine ⟨l0, hl0, ?_⟩
    rcases hv2 with rfl | rfl <;> rcases hv1 with rfl | rfl
    · exact Or.inl rfl
    · exact Or.inr (Or.inl rfl)
    · exact Or.inr (Or.inr (Or.inl rfl))
    · exact Or.inr (Or.inr (Or.inr rfl))

/-- A list whose `dropWhile`-by-whitespace variant satisfies a "rigid"
line predicate (one that forces a non-whitespace first and last character)
can only do so when the whole trim does. -/
theorem body_no_p (p : List Char → Bool) (hnil : p [] = false)
    (hrigid : ∀ l, p l = true → l.dropWhile isJsWS = l ∧ l.rdropWhile isJsWS = l)
    (L : List (List Char)) (hL : ∀ l ∈ L, '\n' ∉ l)
    (hsafe : ∀ l ∈ L, p l = false ∧ p (trimChars l) = false) :
    ∀ l' ∈ splitChar '\n' (trimChars (joinChar '\n' L)), p l' = false := by
  intro l' hl'
  rcases bodyLines_variants L hL l' hl' with rfl | ⟨l, hlL, hv⟩
  · exact hnil
  obtain ⟨hpl, hptl⟩ := hsafe l hlL
  rcases hv with rfl | rfl | rfl | rfl
  · exact hpl
  · cases hpv : p (l.dropWhile isJsWS) with
    | false => rfl
    | true =>
      exfalso
      have h2 := (hrigid _ hpv).2
      have htr : trimChars l = l.dropWhile isJsWS := by rw [trimChars, h2]
      rw [htr, hpv] at hptl
      exact Bool.noConfusion hptl
  · cases hpv : p (l.rdropWhile isJsWS) with
    | false => rfl
    | true =>
      exfalso
      have hne : l.rdropWhile isJsWS ≠ [] := by
        intro hnil2
        rw [hnil2, hnil] at hpv
        exact Bool.noConfusion hpv
      have hdl : l.dropWhile isJsWS = l := by
        cases hl0 : l with
        | nil => rfl
        | cons x xs =>
          by_cases hx : isJsWS x = true
          · exfalso
            obtain ⟨t, ht⟩ := List.rdropWhile_prefix isJsWS l
            have h1 := (hrigid _ hpv).1
            cases hr : l.rdropWhile isJsWS with
            | nil => exact hne hr
            | cons x' xs' =>
              rw [hr] at ht h1
              rw [hl0, List.cons_append] at ht
              have hxx : x' = x := (List.cons.injEq _ _ _ _ ▸ ht).1
              rw [List.dropWhile_cons_of_pos (hxx ▸ hx)] at h1
              have hlen := congrArg List.length h1
              have := (List.dropWhile_sublist (l := xs') isJsWS).length_le
              simp at hlen
              omega
          · rw [List.dropWhile_cons_of_neg hx]
      have htr : trimChars l = l.rdropWhile isJsWS := by rw [trimChars, hdl]
      rw [htr, hpv] at hptl
      exact Bool.noConfusion hptl
  · rw [hptl]

/-! ### Facts about the pragma line predicates -/

theorem isVersionLine_rigid (l : List Char) (h : isVersionLine l = true) :
    l.dropWhile isJsWS = l ∧ l.rdropWhile isJsWS = l := by
  rw [isVersionLine] at h
  obtain ⟨⟨hpre, hsuf⟩, -⟩ := by
    simpa [Bool.and_eq_true] using h
  obtain ⟨t, ht⟩ := hpre
  obtain ⟨a, ha⟩ := hsuf
  constructor
  · rw [← ht, List.cons_append]
    rw [List.dropWhile_cons_of_neg (by decide)]
  · rw [← ha]
    exact List.rdropWhile_concat_neg isJsWS a ';' (by decide)

theorem isExperimentalLine_rigid (l : List Char) (h : isExperimentalLine l = true) :
    l.dropWhile isJsWS = l ∧ l.rdropWhile isJsWS = l := by
  rw [isExperimentalLine] at h
  obtain ⟨⟨hpre, hsuf⟩, -⟩ := by
    simpa [Bool.and_eq_true] using h
  obtain ⟨t, ht⟩ := hpre
  obtain ⟨a, ha⟩ := hsuf
  constructor
  · rw [← ht, List.cons_append]
    rw [List.dropWhile_cons_of_neg (by decide)]
  · rw [← ha]
    exact List.rdropWhile_concat_neg isJsWS a ';' (by decide)

theorem isVersionLine_nil : isVersionLine [] = false := by decide

theorem isExperimentalLine_nil : isExperimentalLine [] = false := by decide

theorem not_version_of_experimental {l : List Char}
    (h : isExperimentalLine l = true) : isVersionLine l = false := by
  rw [isExperimentalLine] at h
  obtain ⟨⟨hpre, -⟩, -⟩ := by
    simpa [Bool.and_eq_true] using h
  obtain ⟨t, ht⟩ := hpre
  subst ht
  simp [isVersionLine, List.isPrefixOf]

theorem not_experimental_of_version {l : List Char}
    (h : isVersionLine l = true) : isExperimentalLine l = false := by
  rw [isVersionLine] at h
  obtain ⟨⟨hpre, -⟩, -⟩ := by
    simpa [Bool.and_eq_true] using h
  obtain ⟨t, ht⟩ := hpre
  subst ht
  simp [isExperimentalLine, List.isPrefixOf]

theorem marker_not_version (x : List Char) :
    isVersionLine ("// File: ".toList ++ x) = false := by
  simp [isVersionLine, List.isPrefixOf]

theorem marker_not_experimental (x : List Char) :
    isExperimentalLine ("// File: ".toList ++ x) = false := by
  simp [isExperimentalLine, List.isPrefixOf]

/-! ### Structure of `printConcatenation` -/

theorem concatReduce_fold_fst
    (pairs : List (String × List Char × List (List Char) × List (List Char)))
    (hnames : ∀ pr ∈ pairs, '\n' ∉ (pr.1 : String).toList) :
    ∀ acc : List Char × List (List Char) × List (List Char),
      splitChar '\n' ((pairs.foldl
        (fun acc pr =>
          (acc.1 ++ '\n' :: ("// File: ".toList ++ pr.1.toList) ++ '\n' :: pr.2.1,
           acc.2.1 ++ pr.2.2.1,
           acc.2.2 ++ pr.2.2.2)) acc).1) =
      splitChar '\n' acc.1 ++
        pairs.flatMap (fun pr =>
          ("// File: ".toList ++ pr.1.toList) :: splitChar '\n' pr.2.1) := by
  induction pairs with
  | nil => intro acc; simp
  | cons pr rest ih =>
    intro acc
    rw [List.foldl_cons]
    rw [ih (fun q hq => hnames q (List.mem_cons_of_mem pr hq))]
    have hnm : '\n' ∉ ("// File: ".toList ++ pr.1.toList) := by
      intro hmem
      rcases List.mem_append.1 hmem with hmem' | hmem'
      · revert hmem'; decide
      · exact hnames pr (List.mem_cons_self pr rest) hmem'
    have hsplit : splitChar '\n'
        (acc.1 ++ '\n' :: ("// File: ".toList ++ pr.1.toList) ++ '\n' :: pr.2.1) =
        splitChar '\n' acc.1 ++ ("// File: ".toList ++ pr.1.toList) :: splitChar '\n' pr.2.1 := by
      rw [splitChar_append_sep, splitChar_append_sep, splitChar_of_not_mem hnm]
      simp
    rw [hsplit]
    simp

theorem concatReduce_fold_versions
    (pairs : List (String × List Char × List (List Char) × List (List Char))) :
    ∀ acc : List Char × List (List Char) × List (List Char),
      (pairs.foldl
        (fun acc pr =>
          (acc.1 ++ '\n' :: ("// File: ".toList ++ pr.1.toList) ++ '\n' :: pr.2.1,
           acc.2.1 ++ pr.2.2.1,
           acc.2.2 ++ pr.2.2.2)) acc).2.1 =
      acc.2.1 ++ pairs.flatMap (fun pr => pr.2.2.1) := by
  induction pairs with
  | nil => intro acc; simp
  | cons pr rest ih =>
    intro acc
    rw [List.foldl_cons, ih]
    simp

theorem concatReduce_fold_exps
    (pairs : List (String × List Char × List (List Char) × List (List Char))) :
    ∀ acc : List Char × List (List Char) × List (List Char),
      (pairs.foldl
        (fun acc pr =>
          (acc.1 ++ '\n' :: ("// File: ".toList ++ pr.1.toList) ++ '\n' :: pr.2.1,
           acc.2.1 ++ pr.2.2.1,
           acc.2.2 ++ pr.2.2.2)) acc).2.2 =
      acc.2.2 ++ pairs.flatMap (fun pr => pr.2.2.2) := by
  induction pairs with
  | nil => intro acc; simp
  | cons pr rest ih =>
    intro acc
    rw [List.foldl_cons, ih]
    simp

theorem cleanAll_shape {env : Env} :
    ∀ {files : List String}
      {pairs : List (String × List Char × List (List Char) × List (List Char))},
      cleanAll env files = .ok pairs →
      ∀ pr ∈ pairs, pr.1 ∈ files ∧ cleanFile env pr.1 = .ok pr.2 := by
  intro files
  induction files with
  | nil =>
    intro pairs h pr hpr
    rw [cleanAll] at h
    cases h
    cases hpr
  | cons f fs ih =>
    intro pairs h pr hpr
    rw [cleanAll] at h
    split at h
    · exact Except.noConfusion h
    next c hc =>
      split at h
      · exact Except.noConfusion h
      next r hr =>
        cases h
        rcases List.mem_cons.1 hpr with rfl | hpr'
        · exact ⟨List.mem_cons_self _ _, hc⟩
        · obtain ⟨h1, h2⟩ := ih hr pr hpr'
          exact ⟨List.mem_cons_of_mem f h1, h2⟩

theorem cleanFile_shape {env : Env} {f : String}
    {c0 : List Char × List (List Char) × List (List Char)}
    (h : cleanFile env f = .ok c0) :
    ∃ contents p, env.resolveFn f = .ok (contents, p) ∧
      c0.2.1 = (splitChar '\n' contents.toList).filter (fun l => isVersionLine l) ∧
      c0.2.2 = (splitChar '\n' contents.toList).filter (fun l => isExperimentalLine l) ∧
      c0.1 = trimChars (joinChar '\n' ((splitChar '\n' contents.toList).map stripLine)) := by
  rw [cleanFile] at h
  split at h
  · exact Except.noConfusion h
  next contents p hres =>
    cases h
    exact ⟨contents, p, hres, rfl, rfl, rfl⟩

theorem flatMap_splitChar_of_no_sep {vs : List (List Char)}
    (h : ∀ v ∈ vs, '\n' ∉ v) :
    vs.flatMap (fun c => splitChar '\n' c) = vs := by
  induction vs with
  | nil => rfl
  | cons v vs ih =>
    rw [List.flatMap_cons, splitChar_of_not_mem (h v (List.mem_cons_self v vs)),
      ih (fun w hw => h w (List.mem_cons_of_mem v hw))]
    rfl

theorem printConcatenation_chunks_eq {env : Env} {files : List String}
    {pairs : List (String × List Char × List (List Char) × List (List Char))}
    {chunks : List (List Char)}
    (hclean : cleanAll env files = .ok pairs)
    (hprint : printConcatenation env files = .ok chunks) :
    chunks = (concatReduce pairs).2.1.take 1 ++ unique (concatReduce pairs).2.2 ++
      [(concatReduce pairs).1] := by
  rw [printConcatenation, hclean] at hprint
  dsimp only at hprint
  exact (Except.ok.inj hprint).symm

theorem pairs_version_props {env : Env} {files : List String}
    {pairs : List (String × List Char × List (List Char) × List (List Char))}
    (hclean : cleanAll env files = .ok pairs) :
    ∀ v ∈ pairs.flatMap (fun pr => pr.2.2.1), isVersionLine v = true ∧ '\n' ∉ v := by
  intro v hv
  rw [List.mem_flatMap] at hv
  obtain ⟨pr, hpr, hvpr⟩ := hv
  obtain ⟨-, hcf⟩ := cleanAll_shape hclean pr hpr
  obtain ⟨contents, p, -, hV, -, -⟩ := cleanFile_shape hcf
  rw [hV] at hvpr
  have hmem := List.mem_of_mem_filter hvpr
  have hprop := List.of_mem_filter hvpr
  exact ⟨by simpa using hprop, splitChar_sep_not_mem '\n' contents.toList v hmem⟩

theorem pairs_exp_props {env : Env} {files : List String}
    {pairs : List (String × List Char × List (List Char) × List (List Char))}
    (hclean : cleanAll env files = .ok pairs) :
    ∀ e ∈ pairs.flatMap (fun pr => pr.2.2.2), isExperimentalLine e = true ∧ '\n' ∉ e := by
  intro e he
  rw [List.mem_flatMap] at he
  obtain ⟨pr, hpr, hepr⟩ := he
  obtain ⟨-, hcf⟩ := cleanAll_shape hclean pr hpr
  obtain ⟨contents, p, -, -, hE, -⟩ := cleanFile_shape hcf
  rw [hE] at hepr
  have hmem := List.mem_of_mem_filter hepr
  have hprop := List.of_mem_filter hepr
  exact ⟨by simpa using hprop, splitChar_sep_not_mem '\n' contents.toList e hmem⟩

theorem big_chunk_lines {env : Env} {files : List String}
    {pairs : List (String × List Char × List (List Char) × List (List Char))}
    (hclean : cleanAll env files = .ok pairs)
    (hnames : ∀ f ∈ files, '\n' ∉ f.toList) :
    splitChar '\n' (concatReduce pairs).1 =
      [] :: pairs.flatMap (fun pr =>
        ("// File: ".toList ++ pr.1.toList) :: splitChar '\n' pr.2.1) := by
  have hnames' : ∀ pr ∈ pairs, '\n' ∉ (pr.1 : String).toList := by
    intro pr hpr
    exact hnames pr.1 (cleanAll_shape hclean pr hpr).1
  rw [concatReduce, concatReduce_fold_fst pairs hnames' ([], [], [])]
  rfl

theorem body_lines_no_version {env : Env} {files : List String}
    {pairs : List (String × List Char × List (List Char) × List (List Char))}
    (hclean : cleanAll env files = .ok pairs)
    (hres : ∀ f ∈ files, ∀ c p, env.resolveFn f = .ok (c, p) →
      ∀ l ∈ splitChar '\n' c.toList,
        isVersionLine (trimChars l) = true → isVersionLine l = true) :
    ∀ pr ∈ pairs, ∀ l ∈ splitChar '\n' pr.2.1, isVersionLine l = false := by
  intro pr hpr
  obtain ⟨hmemf, hcf⟩ := cleanAll_shape hclean pr hpr
  obtain ⟨contents, p, hresolve, -, -, hclean1⟩ := cleanFile_shape hcf
  rw [hclean1]
  refine body_no_p (fun l => isVersionLine l) isVersionLine_nil
    (fun l hl => isVersionLine_rigid l hl) _ ?_ ?_
  · intro m hm
    rw [List.mem_map] at hm
    obtain ⟨l, hl, rfl⟩ := hm
    rw [stripLine]
    split
    · simp
    · exact splitChar_sep_not_mem '\n' contents.toList l hl
  · intro m hm
    rw [List.mem_map] at hm
    obtain ⟨l, hl, rfl⟩ := hm
    rw [stripLine]
    split
    · constructor
      · exact isVersionLine_nil
      · rw [show trimChars [] = [] from rfl]
        exact isVersionLine_nil
    next hnostrip =>
      have hver : isVersionLine l = false := by
        cases hx : isVersionLine l with
        | false => rfl
        | true => exact absurd (by simp [hx]) hnostrip
      have htr : isVersionLine (trimChars l) = false := by
        cases hx : isVersionLine (trimChars l) with
        | false => rfl
        | true =>
          exact absurd (hres pr.1 hmemf contents p hresolve l hl hx) (by simp [hver])
      exact ⟨hver, htr⟩

/-- The heart of claims C4: across the whole emitted output, the lines that
are version pragmas are exactly the first version pragma match encountered
in file (sort) order; every other version pragma is stripped and discarded.
The side conditions ask that global names contain no newline and that no
file has a version pragma line that only becomes one after trimming
surrounding whitespace. -/
theorem printConcatenation_version_filter {env : Env} {files : List String}
    {pairs : List (String × List Char × List (List Char) × List (List Char))}
    {chunks : List (List Char)}
    (hclean : cleanAll env files = .ok pairs)
    (hprint : printConcatenation env files = .ok chunks)
    (hnames : ∀ f ∈ files, '\n' ∉ f.toList)
    (hres : ∀ f ∈ files, ∀ c p, env.resolveFn f = .ok (c, p) →
      ∀ l ∈ splitChar '\n' c.toList,
        isVersionLine (trimChars l) = true → isVersionLine l = true) :
    (outputLines chunks).filter (fun l => isVersionLine l) =
      (pairs.flatMap (fun pr => pr.2.2.1)).take 1 := by
  have hchunks := printConcatenation_chunks_eq hclean hprint
  have hV : (concatReduce pairs).2.1 = pairs.flatMap (fun pr => pr.2.2.1) := by
    rw [concatReduce, concatReduce_fold_versions pairs ([], [], []), List.nil_append]
  have hE : (concatReduce pairs).2.2 = pairs.flatMap (fun pr => pr.2.2.2) := by
    rw [concatReduce, concatReduce_fold_exps pairs ([], [], []), List.nil_append]
  rw [hV, hE] at hchunks
  have hVprops := pairs_version_props hclean
  have hEprops := pairs_exp_props hclean
  have hBig := big_chunk_lines hclean hnames
  have hBody := body_lines_no_version hclean hres
  subst hchunks
  rw [outputLines, List.flatMap_append, List.flatMap_append]
  have h1 : ((pairs.flatMap (fun pr => pr.2.2.1)).take 1).flatMap
      (fun c => splitChar '\n' c) = (pairs.flatMap (fun pr => pr.2.2.1)).take 1 := by
    refine flatMap_splitChar_of_no_sep ?_
    intro v hv
    exact (hVprops v (List.take_subset 1 _ hv)).2
  have h2 : (unique (pairs.flatMap (fun pr => pr.2.2.2))).flatMap
      (fun c => splitChar '\n' c) = unique (pairs.flatMap (fun pr => pr.2.2.2)) := by
    refine flatMap_splitChar_of_no_sep ?_
    intro e he
    exact (hEprops e ((mem_unique _ _).1 he)).2
  have h3 : ([(concatReduce pairs).1].flatMap (fun c => splitChar '\n' c)) =
      splitChar '\n' (concatReduce pairs).1 := by
    simp
  rw [h1, h2, h3, List.filter_append, List.filter_append]
  have hf1 : ((pairs.flatMap (fun pr => pr.2.2.1)).take 1).filter
      (fun l => isVersionLine l) = (pairs.flatMap (fun pr => pr.2.2.1)).take 1 := by
    rw [List.filter_eq_self]
    intro v hv
    exact (hVprops v (List.take_subset 1 _ hv)).1
  have hf2 : (unique (pairs.flatMap (fun pr => pr.2.2.2))).filter
      (fun l => isVersionLine l) = [] := by
    rw [List.filter_eq_nil_iff]
    intro e he
    have := not_version_of_experimental (hEprops e ((mem_unique _ _).1 he)).1
    simp [this]
  have hf3 : (splitChar '\n' (concatReduce pairs).1).filter
      (fun l => isVersionLine l) = [] := by
    rw [List.filter_eq_nil_iff]
    intro l hl
    rw [hBig] at hl
    rcases List.mem_cons.1 hl with rfl | hl'
    · simp [isVersionLine_nil]
    · rw [List.mem_flatMap] at hl'
      obtain ⟨pr, hpr, hlpr⟩ := hl'
      rcases List.mem_cons.1 hlpr with rfl | hlb
      · simp [isVersionLine, List.isPrefixOf]
      · simp [hBody pr hpr l hlb]
  rw [hf1, hf2, hf3]
  simp

theorem body_lines_no_experimental {env : Env} {files : List String}
    {pairs : List (String × List Char × List (List Char) × List (List Char))}
    (hclean : cleanAll env files = .ok pairs)
    (hres : ∀ f ∈ files, ∀ c p, env.resolveFn f = .ok (c, p) →
      ∀ l ∈ splitChar '\n' c.toList,
        isExperimentalLine (trimChars l) = true → isExperimentalLine l = true) :
    ∀ pr ∈ pairs, ∀ l ∈ splitChar '\n' pr.2.1, isExperimentalLine l = false := by
  intro pr hpr
  obtain ⟨hmemf, hcf⟩ := cleanAll_shape hclean pr hpr
  obtain ⟨contents, p, hresolve, -, -, hclean1⟩ := cleanFile_shape hcf
  rw [hclean1]
  refine body_no_p (fun l => isExperimentalLine l) isExperimentalLine_nil
    (fun l hl => isExperimentalLine_rigid l hl) _ ?_ ?_
  · intro m hm
    rw [List.mem_map] at hm
    obtain ⟨l, hl, rfl⟩ := hm
    rw [stripLine]
    split
    · simp
    · exact splitChar_sep_not_mem '\n' contents.toList l hl
  · intro m hm
    rw [List.mem_map] at hm
    obtain ⟨l, hl, rfl⟩ := hm
    rw [stripLine]
    split
    · constructor
      · exact isExperimentalLine_nil
      · rw [show trimChars [] = [] from rfl]
        exact isExperimentalLine_nil
    next hnostrip =>
      have hexp : isExperimentalLine l = false := by
        cases hx : isExperimentalLine l with
        | false => rfl
        | true => exact absurd (by simp [hx]) hnostrip
      have htr : isExperimentalLine (trimChars l) = false := by
        cases hx : isExperimentalLine (trimChars l) with
        | false => rfl
        | true =>
          exact absurd (hres pr.1 hmemf contents p hresolve l hl hx) (by simp [hexp])
      exact ⟨hexp, htr⟩

/-- The heart of claim C5: across the whole emitted output, the lines that
are experimental pragmas are exactly the deduplicated union, in order of
first appearance, of the experimental pragma matches of all files in sort
order. Side conditions as in `printConcatenation_version_filter`. -/
theorem printConcatenation_exp_filter {env : Env} {files : List String}
    {pairs : List (String × List Char × List (List Char) × List (List Char))}
    {chunks : List (List Char)}
    (hclean : cleanAll env files = .ok pairs)
    (hprint : printConcatenation env files = .ok chunks)
    (hnames : ∀ f ∈ files, '\n' ∉ f.toList)
    (hres : ∀ f ∈ files, ∀ c p, env.resolveFn f = .ok (c, p) →
      ∀ l ∈ splitChar '\n' c.toList,
        isExperimentalLine (trimChars l) = true → isExperimentalLine l = true) :
    (outputLines chunks).filter (fun l => isExperimentalLine l) =
      unique (pairs.flatMap (fun pr => pr.2.2.2)) := by
  have hchunks := printConcatenation_chunks_eq hclean hprint
  have hV : (concatReduce pairs).2.1 = pairs.flatMap (fun pr => pr.2.2.1) := by
    rw [concatReduce, concatReduce_fold_versions pairs ([], [], []), List.nil_append]
  have hE : (concatReduce pairs).2.2 = pairs.flatMap (fun pr => pr.2.2.2) := by
    rw [concatReduce, concatReduce_fold_exps pairs ([], [], []), List.nil_append]
  rw [hV, hE] at hchunks
  have hVprops := pairs_version_props hclean
  have hEprops := pairs_exp_props hclean
  have hBig := big_chunk_lines hclean hnames
  have hBody := body_lines_no_experimental hclean hres
  subst hchunks
  rw [outputLines, List.flatMap_append, List.flatMap_append]
  have h1 : ((pairs.flatMap (fun pr => pr.2.2.1)).take 1).flatMap
      (fun c => splitChar '\n' c) = (pairs.flatMap (fun pr => pr.2.2.1)).take 1 := by
    refine flatMap_splitChar_of_no_sep ?_
    intro v hv
    exact (hVprops v (List.take_subset 1 _ hv)).2
  have h2 : (unique (pairs.flatMap (fun pr => pr.2.2.2))).flatMap
      (fun c => splitChar '\n' c) = unique (pairs.flatMap (fun pr => pr.2.2.2)) := by
    refine flatMap_splitChar_of_no_sep ?_
    intro e he
    exact (hEprops e ((mem_unique _ _).1 he)).2
  have h3 : ([(concatReduce pairs).1].flatMap (fun c => splitChar '\n' c)) =
      splitChar '\n' (concatReduce pairs).1 := by
    simp
  rw [h1, h2, h3, List.filter_append, List.filter_append]
  have hf1 : ((pairs.flatMap (fun pr => pr.2.2.1)).take 1).filter
      (fun l => isExperimentalLine l) = [] := by
    rw [List.filter_eq_nil_iff]
    intro v hv
    have := not_experimental_of_version (hVprops v (List.take_subset 1 _ hv)).1
    simp [this]
  have hf2 : (unique (pairs.flatMap (fun pr => pr.2.2.2))).filter
      (fun l => isExperimentalLine l) = unique (pairs.flatMap (fun pr => pr.2.2.2)) := by
    rw [List.filter_eq_self]
    intro e he
    exact (hEprops e ((mem_unique _ _).1 he)).1
  have hf3 : (splitChar '\n' (concatReduce pairs).1).filter
      (fun l => isExperimentalLine l) = [] := by
    rw [List.filter_eq_nil_iff]
    intro l hl
    rw [hBig] at hl
    rcases List.mem_cons.1 hl with rfl | hl'
    · simp [isExperimentalLine_nil]
    · rw [List.mem_flatMap] at hl'
      obtain ⟨pr, hpr, hlpr⟩ := hl'
      rcases List.mem_cons.1 hlpr with rfl | hlb
      · simp [isExperimentalLine, List.isPrefixOf]
      · simp [hBody pr hpr l hlb]
  rw [hf1, hf2, hf3]
  simp

/-! ### First-occurrence decomposition (claim C9) -/

theorem firstOccur_decomp {pat : List Char} :
    ∀ {l : List Char} {i : Nat}, firstOccur pat l = some i →
      l = l.take i ++ pat ++ l.drop (i + pat.length) ∧
      pat.isPrefixOf (l.drop i) = true ∧
      ∀ j < i, pat.isPrefixOf (l.drop j) = false := by
  intro l
  induction l with
  | nil =>
    intro i h
    rw [firstOccur] at h
    by_cases hp : pat.isPrefixOf ([] : List Char)
    · rw [if_pos hp] at h
      cases h
      have hnil : pat = [] := by
        obtain ⟨t, ht⟩ := List.isPrefixOf_iff_prefix.1 hp
        cases List.append_eq_nil.1 ht with
        | intro h1 h2 => exact h1
      subst hnil
      refine ⟨rfl, by simp, ?_⟩
      intro j hj
      omega
    · rw [if_neg hp] at h
      exact Option.noConfusion h
  | cons c cs ih =>
    intro i h
    rw [firstOccur] at h
    by_cases hp : pat.isPrefixOf (c :: cs)
    · rw [if_pos hp] at h
      cases h
      obtain ⟨t, ht⟩ := List.isPrefixOf_iff_prefix.1 hp
      refine ⟨?_, by simpa using hp, ?_⟩
      · rw [List.take_zero, List.nil_append, Nat.zero_add]
        conv_lhs => rw [← ht]
        rw [← ht, List.drop_left]
      · intro j hj
        omega
    · rw [if_neg hp] at h
      cases hfo : firstOccur pat cs with
      | none => rw [hfo] at h; exact Option.noConfusion h
      | some i' =>
        rw [hfo] at h
        have hi : i = i' + 1 := by
          obtain ⟨a, ha1, ha2⟩ := Option.map_eq_some'.1 h
          cases ha1
          omega
        subst hi
        obtain ⟨hdec, hat, hmin⟩ := ih hfo
        refine ⟨?_, ?_, ?_⟩
        · have hgoal : (c :: cs).take (i' + 1) ++ pat ++ (c :: cs).drop (i' + 1 + pat.length) =
              c :: (cs.take i' ++ pat ++ cs.drop (i' + pat.length)) := by
            rw [List.take_succ_cons,
              show i' + 1 + pat.length = (i' + pat.length) + 1 by omega,
              List.drop_succ_cons]
            simp
          rw [hgoal, ← hdec]
        · rw [List.drop_succ_cons]
          exact hat
        · intro j hj
          cases j with
          | zero =>
            rw [List.drop_zero]
            cases hxp : pat.isPrefixOf (c :: cs) with
            | false => rfl
            | true => exact absurd hxp hp
          | succ j' =>
            rw [List.drop_succ_cons]
            exact hmin j' (by omega)

theorem firstOccur_take_clean {pat l : List Char} {i : Nat}
    (hne : pat ≠ []) (h : firstOccur pat l = some i) :
    ¬ List.IsInfix pat (l.take i) := by
  intro hinf
  obtain ⟨-, -, hmin⟩ := firstOccur_decomp h
  obtain ⟨u, v, huv⟩ := hinf
  have hlen2 : (l.take i).length = u.length + (pat.length + v.length) := by
    rw [← huv]
    simp [Nat.add_assoc]
  have htklen : (l.take i).length ≤ i := by
    simp
  have hpatpos : 0 < pat.length := List.length_pos.2 hne
  have hul : u.length < i := by omega
  have hdrop1 : (l.take i).drop u.length = pat ++ v := by
    rw [← huv, List.append_assoc, List.drop_left]
  have hdrop2 : (l.take i).drop u.length = (l.drop u.length).take (i - u.length) := by
    rw [List.drop_take]
  have hpre : List.IsPrefix pat (l.drop u.length) := by
    refine List.IsPrefix.trans ?_ ( List.take_prefix (i - u.length) (l.drop u.length))
    rw [← hdrop2, hdrop1]
    exact List.prefix_append pat v
  have hcontra := hmin u.length hul
  rw [List.isPrefixOf_iff_prefix.2 hpre] at hcontra
  exact Bool.noConfusion hcontra

/-- The heart of claim C9: the GlobalName of a file is its path relative to
the project root; when the marker string `node_modules/` occurs in that
relative path, everything up to and including its first occurrence is
stripped, otherwise the relative path is kept whole. -/
theorem fileNameToGlobalName_spec (cwd fileName truffleRoot : String) :
    (strContains (filePathFromTruffleRoot cwd truffleRoot fileName) "node_modules/" = false →
      fileNameToGlobalName cwd fileName truffleRoot =
        filePathFromTruffleRoot cwd truffleRoot fileName) ∧
    (strContains (filePathFromTruffleRoot cwd truffleRoot fileName) "node_modules/" = true →
      ∃ p, (filePathFromTruffleRoot cwd truffleRoot fileName).toList =
          p ++ nmSepChars ++ (fileNameToGlobalName cwd fileName truffleRoot).toList ∧
        ¬ List.IsInfix nmSepChars p) := by
  have hsc : strContains (filePathFromTruffleRoot cwd truffleRoot fileName) "node_modules/" =
      (firstOccur nmSepChars (filePathFromTruffleRoot cwd truffleRoot fileName).toList).isSome :=
    rfl
  cases hfo : firstOccur nmSepChars (filePathFromTruffleRoot cwd truffleRoot fileName).toList with
  | none =>
    constructor
    · intro _
      rw [fileNameToGlobalName]
      rw [hfo]
    · intro hcon
      rw [hsc, hfo] at hcon
      exact Bool.noConfusion hcon
  | some i =>
    constructor
    · intro hcon
      rw [hsc, hfo] at hcon
      exact Bool.noConfusion hcon
    · intro _
      obtain ⟨hdec, -, -⟩ := firstOccur_decomp hfo
      refine ⟨(filePathFromTruffleRoot cwd truffleRoot fileName).toList.take i, ?_, ?_⟩
      · have hg : fileNameToGlobalName cwd fileName truffleRoot =
            ((filePathFromTruffleRoot cwd truffleRoot fileName).toList.drop
              (i + nmSepChars.length)).asString := by
          rw [fileNameToGlobalName]
          rw [hfo]
        rw [hg]
        rw [show (((filePathFromTruffleRoot cwd truffleRoot fileName).toList.drop
          (i + nmSepChars.length)).asString).toList =
          (filePathFromTruffleRoot cwd truffleRoot fileName).toList.drop
            (i + nmSepChars.length) from rfl]
        exact hdec
      · exact firstOccur_take_clean (by decide) hfo

/-! ### Backslash conversion (claim C6) -/

theorem slashify_no_backslash (s : String) : '\\' ∉ (slashify s).toList := by
  intro hmem
  rw [show (slashify s).toList = s.toList.map
    (fun c => if c = '\\' then '/' else c) from rfl] at hmem
  rw [List.mem_map] at hmem
  obtain ⟨c, -, hfc⟩ := hmem
  by_cases hc : c = '\\'
  · rw [if_pos hc] at hfc
    exact absurd hfc (by decide)
  · rw [if_neg hc] at hfc
    exact hc hfc

theorem slashify_eq_self {s : String} (h : '\\' ∉ s.toList) : slashify s = s := by
  apply String.ext
  rw [show (slashify s).data = s.toList.map
    (fun c => if c = '\\' then '/' else c) from rfl]
  have : ∀ c ∈ s.toList, (fun c => if c = '\\' then '/' else c) c = id c := by
    intro c hc
    have hcne : c ≠ '\\' := fun hh => h (hh ▸ hc)
    simp [hcne]
  rw [List.map_congr_left this, List.map_id]
  rfl

/-! ### Claim theorems -/

/-- C1 (amended): for every dependency edge `(d, t)` recorded during graph
construction, the sorted file list returned by `getSortedFilePaths` lists
the global name of `d` strictly before the global name of `t`, provided
the global-name mapping is injective on the sorted files and entry points
(distinct files may otherwise collapse onto one global name, e.g. through
`node_modules/` stripping, and break the ordering). -/
theorem C1_edge_order {env : Env} {fuel : Nat}
    {entries : List String} {root cwd : String} {st : DfsState}
    {sorted files : List String} {d t : String}
    (hdfs : dfsAll env fuel ⟨[], []⟩ entries = .ok st)
    (hsort : kahnSort st.graph (graphNodes st.graph) = .ok sorted)
    (hfiles : getSortedFilePaths env fuel entries root cwd = .ok files)
    (hinj : ∀ a ∈ sorted ++ entries, ∀ b ∈ sorted ++ entries,
      fileNameToGlobalName cwd a root = fileNameToGlobalName cwd b root → a = b)
    (hedge : (d, t) ∈ st.graph) :
    files.indexOf (fileNameToGlobalName cwd d root) <
      files.indexOf (fileNameToGlobalName cwd t root) :=
  getSortedFilePaths_edge_order hdfs hsort hfiles hinj hedge

theorem C1_witness :
    (["b.sol", "a.sol"].indexOf (fileNameToGlobalName "/r" "b.sol" "/r") <
      ["b.sol", "a.sol"].indexOf (fileNameToGlobalName "/r" "a.sol" "/r")) :=
  C1_edge_order (d := "b.sol") (t := "a.sol")
    (rfl : dfsAll envAB 20 ⟨[], []⟩ ["a.sol"] = .ok ⟨[("b.sol", "a.sol")], ["a.sol", "b.sol"]⟩)
    (rfl : kahnSort [("b.sol", "a.sol")] (graphNodes [("b.sol", "a.sol")]) =
      .ok ["b.sol", "a.sol"])
    (rfl : getSortedFilePaths envAB 20 ["a.sol"] "/r" "/r" = .ok ["b.sol", "a.sol"])
    (by decide)
    (by decide)

/-- C1 counterexample: with entry `E.sol` importing `./node_modules/q.sol`
and `./q.sol`, and `q.sol` importing `./p/x.sol`, the edge
`(p/x.sol, q.sol)` is recorded, yet the returned file list places the
global name of `q.sol` (deduplicated against the stripped
`node_modules/q.sol`) strictly before the global name of `p/x.sol`. -/
theorem C1_counterexample :
    dfsAll envC1x 20 ⟨[], []⟩ ["E.sol"] =
      .ok ⟨[("node_modules/q.sol", "E.sol"), ("q.sol", "E.sol"), ("p/x.sol", "q.sol")],
        ["E.sol", "node_modules/q.sol", "q.sol", "p/x.sol"]⟩ ∧
    getSortedFilePaths envC1x 20 ["E.sol"] "/r" "/r" = .ok ["q.sol", "p/x.sol", "E.sol"] ∧
    ("p/x.sol", "q.sol") ∈
      [("node_modules/q.sol", "E.sol"), ("q.sol", "E.sol"), ("p/x.sol", "q.sol")] ∧
    ¬ (["q.sol", "p/x.sol", "E.sol"].indexOf (fileNameToGlobalName "/r" "p/x.sol" "/r") <
        ["q.sol", "p/x.sol", "E.sol"].indexOf (fileNameToGlobalName "/r" "q.sol" "/r")) := by
  refine ⟨rfl, rfl, by decide, by decide⟩

/-- C2: in the emitted `// File:` marker sequence (one marker per entry of
the deduplicated sorted file list), no global name appears twice, and the
global name of every entry point appears exactly once — including the
degenerate case of a single entry point with no imports. -/
theorem C2_markers {env : Env} {fuel : Nat}
    {entries : List String} {root cwd : String} {files : List String}
    (h : getSortedFilePaths env fuel entries root cwd = .ok files) :
    files.Nodup ∧ (files.map fileMarker).Nodup ∧
      ∀ e ∈ entries, (files.map fileMarker).count
        (fileMarker (fileNameToGlobalName cwd e root)) = 1 :=
  getSortedFilePaths_markers h

theorem C2_witness :
    (["f2.sol"] : List String).Nodup ∧ (["f2.sol"].map fileMarker).Nodup ∧
      ∀ e ∈ ["f2.sol"], ((["f2.sol"].map fileMarker).count
        (fileMarker (fileNameToGlobalName "/r" e "/r")) = 1) :=
  C2_markers (rfl : getSortedFilePaths envPragma 20 ["f2.sol"] "/r" "/r" = .ok ["f2.sol"])

/-- C3: whenever the dependency graph built by the traversal contains a
cycle (a non-empty set of nodes each with an incoming edge from the set),
`flatten` fails with the cycle error whose message lists every file visited
during traversal, and emits nothing. -/
theorem C3_cycle {env : Env} {fuel : Nat} {paths : List String}
    {r : String} {st0 : Proc} {st : DfsState} {S : List String}
    (hex : env.existsFn r = true)
    (hdfs : dfsAll env fuel ⟨[], []⟩
      (paths.map (filePathFromTruffleRoot st0.cwd r)) = .ok st)
    (hne : S ≠ []) (hS : ∀ x ∈ S, x ∈ graphNodes st.graph)
    (hcyc : ∀ x ∈ S, ∃ dd, dd ∈ S ∧ (dd, x) ∈ st.graph) :
    (flatten env fuel paths (some r) st0).2 = .error (cycleMessage st.visited) ∧
    (∀ f ∈ st.visited, strContains (cycleMessage st.visited) f = true) ∧
    (∀ chunks, (flatten env fuel paths (some r) st0).2 ≠ .ok chunks) := by
  have hsort := @getSortedFilePaths_cycle env fuel
    (paths.map (filePathFromTruffleRoot st0.cwd r)) r (pathResolve st0.cwd r) st S
    hdfs hne hS hcyc
  have hfl := flatten_sort_error hex hsort
  refine ⟨by rw [hfl], fun f hf => cycleMessage_contains hf, ?_⟩
  intro chunks hcon
  rw [hfl] at hcon
  exact Except.noConfusion hcon

theorem C3_witness :
    (flatten envCyc 20 ["a.sol"] (some "/r") ⟨"/r"⟩).2 =
      .error (cycleMessage ["a.sol", "b.sol"]) ∧
    (∀ f ∈ ["a.sol", "b.sol"], strContains (cycleMessage ["a.sol", "b.sol"]) f = true) ∧
    (∀ chunks, (flatten envCyc 20 ["a.sol"] (some "/r") ⟨"/r"⟩).2 ≠ .ok chunks) :=
  C3_cycle (S := ["a.sol", "b.sol"])
    (by decide)
    (rfl : dfsAll envCyc 20 ⟨[], []⟩
      (["a.sol"].map (filePathFromTruffleRoot "/r" "/r")) =
      .ok ⟨[("b.sol", "a.sol"), ("a.sol", "b.sol")], ["a.sol", "b.sol"]⟩)
    (by decide)
    (by decide)
    (by decide)

/-- C4 (amended): across the whole bundle exactly the first version pragma
match of the files in sort order is emitted as a version-pragma line;
version pragmas of all later files in sort order are stripped from their
bodies and discarded. (In the example of the claim, F1 importing F2 means
F2 precedes F1 in sort order, so the surviving pragma is F2's V2, not V1.)
Side conditions: global names contain no newline, and no file contains a
line that becomes a version pragma only after boundary trimming. -/
theorem C4_version_lines {env : Env} {files : List String}
    {pairs : List (String × List Char × List (List Char) × List (List Char))}
    {chunks : List (List Char)}
    (hclean : cleanAll env files = .ok pairs)
    (hprint : printConcatenation env files = .ok chunks)
    (hnames : ∀ f ∈ files, '\n' ∉ f.toList)
    (hres : ∀ f ∈ files, ∀ c p, env.resolveFn f = .ok (c, p) →
      ∀ l ∈ splitChar '\n' c.toList,
        isVersionLine (trimChars l) = true → isVersionLine l = true) :
    (outputLines chunks).filter (fun l => isVersionLine l) =
      (pairs.flatMap (fun pr => pr.2.2.1)).take 1 :=
  printConcatenation_version_filter hclean hprint hnames hres

theorem C4_witness :
    (outputLines chunksPragma).filter (fun l => isVersionLine l) =
      (pairsPragma.flatMap (fun pr => pr.2.2.1)).take 1 :=
  C4_version_lines
    (rfl : cleanAll envPragma ["f2.sol", "f1.sol"] = .ok pairsPragma)
    (rfl : printConcatenation envPragma ["f2.sol", "f1.sol"] = .ok chunksPragma)
    (by decide)
    (by
      intro f hf c p hcp
      have hf' : f = "f2.sol" ∨ f = "f1.sol" := by simpa using hf
      rcases hf' with rfl | rfl
      · cases hcp
        decide
      · cases hcp
        decide)

/-- C4 counterexample: in the exact scenario of the claim — `f1.sol` with
version pragma V1 = `^0.5.0` importing `f2.sol` with version pragma
V2 = `^0.6.0` — the flattened output contains exactly one version pragma
line, but it is V2 (the dependency comes first in sort order), and V1 does
not occur, contradicting the claimed "one version pragma equal to V1 and
zero occurrences of V2". -/
theorem C4_counterexample :
    ((flatten envPragma 20 ["f1.sol"] (some "/r") ⟨"/r"⟩).2.map
      (fun chunks => (outputLines chunks).filter (fun l => isVersionLine l))) =
      .ok ["pragma solidity ^0.6.0;".toList] ∧
    ((flatten envPragma 20 ["f1.sol"] (some "/r") ⟨"/r"⟩).2.map
      (fun chunks => decide ("pragma solidity ^0.5.0;".toList ∈ outputLines chunks))) =
      .ok false := by
  constructor
  · rfl
  · rfl

/-- C5: the experimental-pragma lines of the whole output are exactly the
deduplicated union, in order of first appearance, of all files'
experimental pragma matches in sort order; in particular two files with an
identical experimental pragma line contribute one occurrence. Side
conditions as in C4. -/
theorem C5_experimental_lines {env : Env} {files : List String}
    {pairs : List (String × List Char × List (List Char) × List (List Char))}
    {chunks : List (List Char)}
    (hclean : cleanAll env files = .ok pairs)
    (hprint : printConcatenation env files = .ok chunks)
    (hnames : ∀ f ∈ files, '\n' ∉ f.toList)
    (hres : ∀ f ∈ files, ∀ c p, env.resolveFn f = .ok (c, p) →
      ∀ l ∈ splitChar '\n' c.toList,
        isExperimentalLine (trimChars l) = true → isExperimentalLine l = true) :
    (outputLines chunks).filter (fun l => isExperimentalLine l) =
      unique (pairs.flatMap (fun pr => pr.2.2.2)) :=
  printConcatenation_exp_filter hclean hprint hnames hres

theorem C5_witness :
    (outputLines chunksPragma).filter (fun l => isExperimentalLine l) =
      unique (pairsPragma.flatMap (fun pr => pr.2.2.2)) ∧
    unique (pairsPragma.flatMap (fun pr => pr.2.2.2)) =
      ["pragma experimental ABIEncoderV2;".toList] ∧
    pairsPragma.flatMap (fun pr => pr.2.2.2) =
      ["pragma experimental ABIEncoderV2;".toList,
       "pragma experimental ABIEncoderV2;".toList] :=
  ⟨C5_experimental_lines
    (rfl : cleanAll envPragma ["f2.sol", "f1.sol"] = .ok pairsPragma)
    (rfl : printConcatenation envPragma ["f2.sol", "f1.sol"] = .ok chunksPragma)
    (by decide)
    (by
      intro f hf c p hcp
      have hf' : f = "f2.sol" ∨ f = "f1.sol" := by simpa using hf
      rcases hf' with rfl | rfl
      · cases hcp
        decide
      · cases hcp
        decide),
    by decide, by decide⟩

/-- C6 (amended): a raw import starting with `./` or `../` is joined to
the importing file directory, its redundant segments are collapsed, and its
separators are converted to forward slashes; any other raw import is
returned with each backslash replaced by a forward slash — hence unchanged
exactly when it contains no backslash — and in all cases the result is
backslash-free. -/
theorem C6_normalization (raw fp : String) :
    ((['.', '/'].isPrefixOf raw.toList || ['.', '.', '/'].isPrefixOf raw.toList) = true →
      getNormalizedDependencyPath raw fp =
        slashify (pathNormalize (pathJoin (getDirPath fp) raw))) ∧
    ((['.', '/'].isPrefixOf raw.toList || ['.', '.', '/'].isPrefixOf raw.toList) = false →
      getNormalizedDependencyPath raw fp = slashify raw) ∧
    ((['.', '/'].isPrefixOf raw.toList || ['.', '.', '/'].isPrefixOf raw.toList) = false →
      '\\' ∉ raw.toList → getNormalizedDependencyPath raw fp = raw) ∧
    '\\' ∉ (getNormalizedDependencyPath raw fp).toList := by
  refine ⟨?_, ?_, ?_, ?_⟩
  · intro h
    rw [getNormalizedDependencyPath]
    rw [if_pos h]
  · intro h
    rw [getNormalizedDependencyPath]
    rw [if_neg (by simp only [h]; exact Bool.false_ne_true)]
  · intro h hb
    rw [getNormalizedDependencyPath]
    rw [if_neg (by simp only [h]; exact Bool.false_ne_true)]
    exact slashify_eq_self hb
  · exact slashify_no_backslash _

theorem C6_witness :
    getNormalizedDependencyPath "./x.sol" "contracts/A.sol" =
      slashify (pathNormalize (pathJoin (getDirPath "contracts/A.sol") "./x.sol")) ∧
    getNormalizedDependencyPath "@oz/c.sol" "contracts/A.sol" = "@oz/c.sol" :=
  ⟨(C6_normalization "./x.sol" "contracts/A.sol").1 (by decide),
   (C6_normalization "@oz/c.sol" "contracts/A.sol").2.2.1 (by decide) (by decide)⟩

/-- C6 counterexample: the bare (package-style) raw import `a\b` is not
returned unchanged — its backslash is replaced, yielding `a/b`. -/
theorem C6_counterexample :
    (['.', '/'].isPrefixOf "a\\b".toList || ['.', '.', '/'].isPrefixOf "a\\b".toList) = false ∧
    getNormalizedDependencyPath "a\\b" "contracts/A.sol" = "a/b" ∧
    ("a/b" : String) ≠ "a\\b" := by
  refine ⟨by decide, rfl, by decide⟩

/-- C7 (amended): during the traversal loop a dependency already in the
visited list only records its edge `(dependency, current file)` and is not
re-entered; every dependency of a successfully processed file has its edge
in the final graph, visited or not; and within a single `dependenciesDfs`
entry-point traversal the visited list stays duplicate-free, so each file
is resolved and parsed at most once there. (Across entry points the
unguarded entry loop can traverse an already-visited entry point again —
see the counterexample.) -/
theorem C7_traversal (env : Env) :
    (∀ (fuel : Nat) (st : DfsState) (fp dep : String) (rest : List String),
      dep ∈ st.visited →
      dfsRun env (fuel + 1) st (.loop fp (dep :: rest)) =
        dfsRun env fuel { st with graph := st.graph ++ [(dep, fp)] } (.loop fp rest)) ∧
    (∀ (fuel : Nat) (st : DfsState) (fp : String) (deps : List String) (st' : DfsState),
      dfsRun env fuel st (.loop fp deps) = .ok st' →
      ∀ d ∈ deps, (d, fp) ∈ st'.graph) ∧
    (∀ (fuel : Nat) (st : DfsState) (f : String) (st' : DfsState),
      dependenciesDfs env fuel st f = .ok st' →
      f ∉ st.visited → st.visited.Nodup → st'.visited.Nodup) :=
  ⟨fun fuel st fp dep rest h => dfsRun_visited_skip env fuel st fp dep rest h,
   fun _ _ _ _ _ h => dfsRun_loop_edges env h,
   fun _ _ _ _ h hnv hnd =>
     dfsRun_nodup env h hnd (fun fp' hfp' => by cases hfp'; exact hnv)⟩

theorem C7_witness :
    dfsRun envAB 20 ⟨[], ["b.sol"]⟩ (.loop "a.sol" ["b.sol"]) =
      dfsRun envAB 19 ⟨[("b.sol", "a.sol")], ["b.sol"]⟩ (.loop "a.sol" []) ∧
    ("b.sol", "a.sol") ∈ (⟨[("b.sol", "a.sol")], ["b.sol"]⟩ : DfsState).graph ∧
    (["a.sol", "b.sol"] : List String).Nodup :=
  ⟨(C7_traversal envAB).1 19 ⟨[], ["b.sol"]⟩ "a.sol" "b.sol" [] (by decide),
   (C7_traversal envAB).2.1 20 ⟨[], []⟩ "a.sol" ["b.sol"]
     ⟨[("b.sol", "a.sol")], ["b.sol"]⟩ rfl "b.sol" (by decide),
   (C7_traversal envAB).2.2 20 ⟨[], []⟩ "a.sol"
     ⟨[("b.sol", "a.sol")], ["a.sol", "b.sol"]⟩ rfl (by decide) (by decide)⟩

/-- C7 counterexample: with entry points `a.sol` and `b.sol`, where the
file `a.sol` imports `./b.sol`, the shared traversal pushes `b.sol` twice — the entry
point loop re-traverses the already-visited `b.sol`, resolving and parsing
it a second time, so a file is not resolved at most once across all entry
points. -/
theorem C7_counterexample :
    dfsAll envAB 20 ⟨[], []⟩ ["a.sol", "b.sol"] =
      .ok ⟨[("b.sol", "a.sol")], ["a.sol", "b.sol", "b.sol"]⟩ ∧
    ¬ (["a.sol", "b.sol", "b.sol"] : List String).Nodup := by
  refine ⟨rfl, by decide⟩

/-- C8 (amended): a resolution failure is propagated unchanged through the
traversal, the sort stage and `flatten`; a parse failure is propagated
immediately but wrapped with the offending file path; the sort stage passes
traversal errors through verbatim; and an erroring `flatten` never yields
chunks (no partial output). -/
theorem C8_propagation :
    (∀ (env : Env) (fuel : Nat) (st : DfsState) (fp e : String),
      env.resolveFn fp = .error e → dependenciesDfs env (fuel + 1) st fp = .error e) ∧
    (∀ (env : Env) (fuel : Nat) (st : DfsState) (fp c p cause : String),
      env.resolveFn fp = .ok (c, p) → env.parseFn c = .error cause →
      dependenciesDfs env (fuel + 1) st fp =
        .error ("Could not parse " ++ p ++ " for extracting its imports: " ++ cause)) ∧
    (∀ (env : Env) (fuel : Nat) (entries : List String) (root cwd e : String),
      dfsAll env fuel ⟨[], []⟩ entries = .error e →
      getSortedFilePaths env fuel entries root cwd = .error e) ∧
    (∀ (env : Env) (fuel : Nat) (paths : List String) (r : String) (st0 : Proc)
      (e : String),
      env.existsFn r = true →
      getSortedFilePaths env fuel (paths.map (filePathFromTruffleRoot st0.cwd r)) r
        (pathResolve st0.cwd r) = .error e →
      (flatten env fuel paths (some r) st0).2 = .error e ∧
      ∀ chunks, (flatten env fuel paths (some r) st0).2 ≠ .ok chunks) := by
  refine ⟨?_, ?_, ?_, ?_⟩
  · intro env fuel st fp e h
    exact dependenciesDfs_resolve_error env fuel st fp e h
  · intro env fuel st fp c p cause hres hparse
    exact dependenciesDfs_parse_error env fuel st fp c p cause hres hparse
  · intro env fuel entries root cwd e h
    exact getSortedFilePaths_dfs_error env fuel entries root cwd e h
  · intro env fuel paths r st0 e hex hsort
    have hfl := flatten_sort_error hex hsort
    refine ⟨by rw [hfl], ?_⟩
    intro chunks hcon
    rw [hfl] at hcon
    exact Except.noConfusion hcon

theorem C8_witness :
    dependenciesDfs envNoRes 20 ⟨[], []⟩ "a.sol" = .error "unresolved: a.sol" ∧
    dependenciesDfs envBad 20 ⟨[], []⟩ "a.sol" =
      .error "Could not parse a.sol for extracting its imports: boom" ∧
    getSortedFilePaths envBad 20 ["a.sol"] "/r" "/r" =
      .error "Could not parse a.sol for extracting its imports: boom" ∧
    (flatten envBad 20 ["a.sol"] (some "/r") ⟨"/r"⟩).2 =
      .error "Could not parse a.sol for extracting its imports: boom" :=
  ⟨C8_propagation.1 envNoRes 19 ⟨[], []⟩ "a.sol" "unresolved: a.sol" rfl,
   C8_propagation.2.1 envBad 19 ⟨[], []⟩ "a.sol" "bad" "a.sol" "boom" rfl rfl,
   C8_propagation.2.2.1 envBad 20 ["a.sol"] "/r" "/r"
     "Could not parse a.sol for extracting its imports: boom" rfl,
   (C8_propagation.2.2.2 envBad 20 ["a.sol"] "/r" ⟨"/r"⟩
     "Could not parse a.sol for extracting its imports: boom" (by decide) rfl).1⟩

/-- C8 counterexample: a parse failure with cause `boom` aborts the whole
flatten, but the failure delivered to the caller is the wrapped message,
not the original error — errors are not propagated unchanged. -/
theorem C8_counterexample :
    envBad.parseFn "bad" = .error "boom" ∧
    (flatten envBad 20 ["a.sol"] (some "/r") ⟨"/r"⟩).2 =
      .error "Could not parse a.sol for extracting its imports: boom" ∧
    ("Could not parse a.sol for extracting its imports: boom" : String) ≠ "boom" := by
  refine ⟨rfl, rfl, by decide⟩

/-- C9: the global name of a resolved file path is the path relative to
the project root, with everything up to and including the first occurrence
of `node_modules/` stripped when that marker occurs in the relative path,
and the full relative path otherwise. -/
theorem C9_global_name (cwd fileName truffleRoot : String) :
    (strContains (filePathFromTruffleRoot cwd truffleRoot fileName) "node_modules/" = false →
      fileNameToGlobalName cwd fileName truffleRoot =
        filePathFromTruffleRoot cwd truffleRoot fileName) ∧
    (strContains (filePathFromTruffleRoot cwd truffleRoot fileName) "node_modules/" = true →
      ∃ p, (filePathFromTruffleRoot cwd truffleRoot fileName).toList =
          p ++ nmSepChars ++ (fileNameToGlobalName cwd fileName truffleRoot).toList ∧
        ¬ List.IsInfix nmSepChars p) :=
  fileNameToGlobalName_spec cwd fileName truffleRoot

theorem C9_witness :
    (fileNameToGlobalName "/r" "p/x.sol" "/r" = filePathFromTruffleRoot "/r" "/r" "p/x.sol") ∧
    (∃ p, (filePathFromTruffleRoot "/r" "/r" "node_modules/q.sol").toList =
        p ++ nmSepChars ++ (fileNameToGlobalName "/r" "node_modules/q.sol" "/r").toList ∧
      ¬ List.IsInfix nmSepChars p) :=
  ⟨(C9_global_name "/r" "p/x.sol" "/r").1 (by decide),
   (C9_global_name "/r" "node_modules/q.sol" "/r").2 (by decide)⟩

/-- C10: `flatten` switches the working directory to the project root and
restores the original directory exactly when the whole operation succeeds;
when it fails, the directory is either untouched (the failure happened
before the change) or left at the project root (not restored). -/
theorem C10_working_directory {env : Env} {fuel : Nat} {paths : List String}
    {root : Option String} {st0 : Proc} :
    (∀ chunks, (flatten env fuel paths root st0).2 = .ok chunks →
      (flatten env fuel paths root st0).1.cwd = st0.cwd) ∧
    (∀ e, (flatten env fuel paths root st0).2 = .error e →
      (flatten env fuel paths root st0).1 = st0 ∨
        ∃ r, flattenRootRes env root = .ok r ∧
          (flatten env fuel paths root st0).1.cwd = pathResolve st0.cwd r) :=
  flatten_cwd

theorem C10_witness :
    ((flatten envLone 20 ["a.sol"] (some "/r") ⟨"/x"⟩).1.cwd = "/x") ∧
    ((flatten envBad 20 ["a.sol"] (some "/r") ⟨"/r"⟩).1 = (⟨"/r"⟩ : Proc) ∨
      ∃ r, flattenRootRes envBad (some "/r") = .ok r ∧
        (flatten envBad 20 ["a.sol"] (some "/r") ⟨"/r"⟩).1.cwd = pathResolve "/r" r) :=
  ⟨C10_working_directory.1 chunksLone rfl,
   C10_working_directory.2 "Could not parse a.sol for extracting its imports: boom" rfl⟩
